import Mathlib

/-!
Verification of the oink parity-game engine core: the experimental
bounded-precision Zielonka solver (src/experimental.cpp), the driver
(src/oink.cpp: solve, flush, solveLoop) and the preprocessing reductions
(solveSingleParity, solveTrivialCycles).  The C++ is shallowly embedded:
vectors become lists, loops become folds or fuelled recursions, the
process-global memo map and category counter become explicitly threaded
state, and the LOGIC_ERROR abort becomes a sticky error flag.
-/

namespace pg

/-- Parity game together with its mutable solution, mirroring the game
data accessed by oink.cpp and experimental.cpp: `owner`, `priority`,
`out`/`in` adjacency lists, and the solution arrays `solved`, `winner`,
`strategy` (strategy is `-1` when the owner of a vertex is the loser). -/
structure Game where
  n : Nat
  owner : List Nat
  priority : List Nat
  out : List (List Nat)
  inE : List (List Nat)
  solved : List Bool
  winner : List Nat
  strategy : List Int
deriving Repr, DecidableEq

/-- Read `owner[v]` (C++ indexes without bounds checks; out-of-range reads
are undefined there, here they default to 0 and are excluded by
well-formedness hypotheses). -/
def Game.ownerOf (g : Game) (v : Nat) : Nat := g.owner.getD v 0

/-- Read `priority[v]`. -/
def Game.prioOf (g : Game) (v : Nat) : Nat := g.priority.getD v 0

/-- Read the successor list `out[v]`. -/
def Game.outOf (g : Game) (v : Nat) : List Nat := g.out.getD v []

/-- Read the predecessor list `in[v]`. -/
def Game.inOf (g : Game) (v : Nat) : List Nat := g.inE.getD v []

/-- Modelled from the spec: `Game::gameSolved()` (declared in game.hpp,
which is not among the provided sources) returns whether every vertex of
the game is solved; it is the loop condition of `Oink::solveLoop`. -/
def Game.gameSolved (g : Game) : Bool := g.solved.all (fun b => b)

/-- Well-formedness of a game: array lengths match `n`, owners are 0/1,
and all edges stay in range. -/
def Game.WF (g : Game) : Prop :=
  g.owner.length = g.n ∧ g.priority.length = g.n ∧
  g.out.length = g.n ∧ g.inE.length = g.n ∧
  g.solved.length = g.n ∧ g.winner.length = g.n ∧ g.strategy.length = g.n ∧
  (∀ v, v < g.n → g.ownerOf v = 0 ∨ g.ownerOf v = 1) ∧
  (∀ v, v < g.n → ∀ w ∈ g.outOf v, w < g.n) ∧
  (∀ v, v < g.n → ∀ w ∈ g.inOf v, w < g.n)

instance (g : Game) : Decidable g.WF := by
  unfold Game.WF
  exact inferInstance

/-! ## The experimental solver (struct zsolver, experimental.cpp) -/

/-- Key of the global memoization map `memo`: the precision pair and the
vertex list of a frame (`std::pair<std::array<int,2>, std::vector<int>>`). -/
abbrev MemoKey := (Int × Int) × List Nat

/-- The memoization map, an association list standing for the `std::map`
at experimental.cpp line 98. -/
abbrev Memo := List (MemoKey × List Int)

/-- Lookup in the memo map (`memo.count` / `memo[k]`). -/
def memoLookup (m : Memo) (k : MemoKey) : Option (List Int) :=
  (m.find? (fun e => decide (e.1 = k))).map (fun e => e.2)

/-- Record strategies under a key: `memo[k]` default-constructs an empty
vector when the key is absent, and the values are appended with
`push_back` (so a second record under the same key appends). -/
def memoAppend (m : Memo) (k : MemoKey) (vals : List Int) : Memo :=
  if (m.find? (fun e => decide (e.1 = k))).isSome then
    m.map (fun e => if e.1 = k then (e.1, e.2 ++ vals) else e)
  else m ++ [(k, vals)]

/-- Mutable state of a `zsolver`: the per-vertex category array `vtype`,
the per-vertex strategy draft, the residual-degree scratch array `degs`,
plus the process-global category counter `last_category`, the
process-global memo map, and the iteration counter `iters`. -/
structure ZState where
  vtype : List Nat
  strategy : List Int
  degs : List Int
  lastCategory : Nat
  memo : Memo
  iters : Nat
deriving Repr, DecidableEq

namespace zsolver

/-- Process one popped vertex `v` of the attractor worklist: for every
`w ∈ in[v]`, decrement `degs[w]`; on reaching zero relabel `w` to
`cat_yes`, record the witness strategy (the edge into `v` for the
attracting player, `-1` otherwise) and append `w` to the queue. -/
def attrStep (g : Game) (whose cat_yes : Nat) (v : Nat) (st : ZState) :
    ZState × List Nat :=
  (g.inOf v).foldl
    (fun p w =>
      let d := p.1.degs.getD w 0 - 1
      let st' := { p.1 with degs := p.1.degs.set w d }
      if d = 0 then
        ({ st' with
            vtype := st'.vtype.set w cat_yes,
            strategy := st'.strategy.set w
              (if g.ownerOf w = whose then (v : Int) else -1) },
          p.2 ++ [w])
      else (st', p.2))
    (st, [])

/-- Worklist loop of the attractor (the indexed for-loop over the growing
`aqueue`), fuelled; one unit of fuel is spent per popped vertex. -/
def attrGo (g : Game) (whose cat_yes : Nat) :
    Nat → List Nat → ZState → ZState
  | 0, _, st => st
  | _ + 1, [], st => st
  | fuel + 1, v :: pending, st =>
      let p := attrStep g whose cat_yes v st
      attrGo g whose cat_yes fuel (pending ++ p.2) p.1

/-- Initialisation scan of the attractor: vertices of `vs` already
labelled `cat_yes` seed the queue; for the others the residual degree is
1 when owned by the attracting player, else the number of successors
still inside the subgame. -/
def attrInit (g : Game) (whose cat_no cat_yes : Nat) (vs : List Nat)
    (st : ZState) : ZState :=
  vs.foldl
    (fun s v =>
      if s.vtype.getD v 0 = cat_yes then s
      else if g.ownerOf v = whose then { s with degs := s.degs.set v 1 }
      else
        let d := (g.outOf v).foldl
          (fun d w =>
            if s.vtype.getD w 0 = cat_no ∨ s.vtype.getD w 0 = cat_yes
            then d + 1 else d) 0
        { s with degs := s.degs.set v d })
    st

/-- The attractor primitive `zsolver::attractor` (experimental.cpp
lines 52-84): compute the attractor of the current `cat_yes` set for
player `whose` inside the subgame `vs`, then reset `degs[v] = -1` for
`v ∈ vs`.  The worklist fuel `vs.length` is enough because every queue
entry is a distinct member of `vs`. -/
def attractor (g : Game) (vs : List Nat) (whose cat_no cat_yes : Nat)
    (st : ZState) : ZState :=
  let seeds := vs.filter (fun v => decide (st.vtype.getD v 0 = cat_yes))
  let st1 := attrInit g whose cat_no cat_yes vs st
  let st2 := attrGo g whose cat_yes vs.length seeds st1
  { st2 with degs := vs.foldl (fun ds v => ds.set v (-1)) st2.degs }

/-- Component access of the `std::array<int,2>` precision pair. -/
def getPrec (p : Int × Int) (i : Nat) : Int := if i = 0 then p.1 else p.2

/-- Component update of the precision pair. -/
def setPrec (p : Int × Int) (i : Nat) (x : Int) : Int × Int :=
  if i = 0 then (x, p.2) else (p.1, x)

/-- Copy a cached strategy vector back into the strategy array
(`strategy[vs[i]] = m[i]`). -/
def copyCached (vs : List Nat) (m : List Int) (strat : List Int) :
    List Int :=
  (List.range vs.length).foldl
    (fun s i => s.set (vs.getD i 0) (m.getD i 0)) strat

/-- Owner-directed strategy assignment used by both concede branches of
zsolver::run: every `v ∈ vs` owned by `us` gets `a`, the others get
`b` (lines 130-133 with a = -1, b = 999; lines 151-154 with a = 999,
b = -1). -/
def setAll (g : Game) (us : Nat) (a b : Int) (vs : List Nat)
    (strat : List Int) : List Int :=
  vs.foldl (fun s v => s.set v (if g.ownerOf v = us then a else b)) strat

/-- Mark the high-priority layer (lines 139-140): every `v ∈ vs` with
priority equal to `maxprio` gets `vtype = cat_hiprio` and the `-2`
placeholder strategy. -/
def markLayer (g : Game) (maxprio : Int) (cat_hiprio : Nat)
    (vs : List Nat) (st : ZState) : ZState :=
  vs.foldl
    (fun s v =>
      if (g.prioOf v : Int) = maxprio then
        { s with vtype := s.vtype.set v cat_hiprio,
                 strategy := s.strategy.set v (-2) }
      else s) st

/-- Partition the subgame by the recursive verdict (lines 160-166):
a vertex is opponent-won iff its owner is `us` and its strategy is -1,
or its owner is the opponent and its strategy is nonnegative; such
vertices are relabelled `cat_opp` (clearing the all-won flag), the rest
`cat_hiprio`. -/
def partitionSub (g : Game) (us cat_opp cat_hiprio : Nat)
    (subgame : List Nat) (st : ZState) : ZState × Bool :=
  subgame.foldl
    (fun (p : ZState × Bool) v =>
      if (if g.ownerOf v = us then p.1.strategy.getD v 0 = -1
          else p.1.strategy.getD v 0 ≥ 0) then
        ({ p.1 with vtype := p.1.vtype.set v cat_opp }, false)
      else ({ p.1 with vtype := p.1.vtype.set v cat_hiprio }, p.2))
    (st, true)

/-- Fill the strategies of the high-priority layer on the fully-won path
(lines 176-182): an `us`-owned vertex at `maxprio` picks the last
successor labelled `cat_hiprio`, an opponent-owned one gets -1. -/
def fillTop (g : Game) (us : Nat) (maxprio : Int) (cat_hiprio : Nat)
    (vs : List Nat) (st : ZState) : ZState :=
  vs.foldl
    (fun s v =>
      if (g.prioOf v : Int) = maxprio then
        if g.ownerOf v = us then
          let e' := (g.outOf v).foldl
            (fun (cur : Int) (e : Nat) =>
              if s.vtype.getD e 0 = cat_hiprio then Int.ofNat e
              else cur)
            (s.strategy.getD v 0)
          { s with strategy := s.strategy.set v e' }
        else { s with strategy := s.strategy.set v (-1) }
      else s) st

/-- The recursive solver `zsolver::run` (experimental.cpp lines 100-221),
fuelled on recursion depth.  Parameters are the subgame vertex list, its
base category, the precision pair, the mode (0-3) and `mprio` (negative
means: scan the subgame for the maximum priority). -/
def run (g : Game) (flags : Nat) :
    Nat → List Nat → Nat → (Int × Int) → Nat → Int → ZState → ZState
  | 0, _, _, _, _, _, st => st
  | fuel + 1, vs, cat_base, precision, mode, mprio, st =>
    if flags &&& 2 ≠ 0 ∧ (memoLookup st.memo (precision, vs)).isSome then
      let s' := copyCached vs ((memoLookup st.memo (precision, vs)).getD [])
        st.strategy
      { st with strategy := s' }
    else
    let st := { st with iters := st.iters + 1 }
    if vs = [] then st
    else
      let maxprio : Int :=
        if mprio < 0 then
          vs.foldl (fun a v => max a ((g.prioOf v : Int))) mprio
        else mprio
      let us := (maxprio % 2).toNat
      let opponent := 1 - us
      if getPrec precision us ≤ 0 then
        { st with strategy := setAll g us (-1) 999 vs st.strategy }
      else
        let cat_hiprio := st.lastCategory
        let st := { st with lastCategory := st.lastCategory + 1 }
        let st := markLayer g maxprio cat_hiprio vs st
        let st := attractor g vs us cat_base cat_hiprio st
        let subprecision :=
          if mode = 0 ∨ mode = 2 then
            setPrec precision opponent (getPrec precision opponent - 1)
          else precision
        let subgame := vs.filter (fun v => decide (st.vtype.getD v 0 = cat_base))
        let st :=
          if getPrec subprecision opponent = 0 then
            { st with strategy := setAll g us 999 (-1) vs st.strategy }
          else
            run g flags fuel subgame cat_base subprecision
              (if mode = 3 then 3 else 0) (mprio - 1) st
        let cat_opp := st.lastCategory
        let st := { st with lastCategory := st.lastCategory + 1 }
        let pr := partitionSub g us cat_opp cat_hiprio subgame st
        let st := pr.1
        if pr.2 then
          if mode = 0 then
            run g flags fuel vs cat_hiprio precision 1 mprio st
          else
            let st := fillTop g us maxprio cat_hiprio vs st
            if flags &&& 2 ≠ 0 then
              let m' := memoAppend st.memo (precision, vs)
                (vs.map (fun v => st.strategy.getD v 0))
              { st with memo := m' }
            else st
        else
          let st := attractor g vs opponent cat_hiprio cat_opp st
          let subgame2 :=
            vs.filter (fun v => decide (st.vtype.getD v 0 = cat_hiprio))
          let st := run g flags fuel subgame2 cat_hiprio precision
            (if mode = 1 then 2 else mode) mprio st
          if flags &&& 2 ≠ 0 then
            let m' := memoAppend st.memo (precision, vs)
              (vs.map (fun v => st.strategy.getD v 0))
            { st with memo := m' }
          else st

end zsolver

/-! ## The driver (class Oink, oink.cpp) -/

/-- Driver state: the game with its solution, the subgame mask
`disabled`, the FIFO `todo` queue, the enabled-out-degree array
`outcount`, and a sticky `error` flag standing for the LOGIC_ERROR
abort. -/
structure OinkState where
  game : Game
  disabled : List Bool
  todo : List Nat
  outcount : List Int
  error : Bool
deriving Repr, DecidableEq

/-- Construct the driver state for a game, as the Oink constructor does:
no vertex disabled, empty todo queue, `outcount[i]` the number of
enabled successors of `i` (all of them, since nothing is disabled). -/
def initOink (g : Game) : OinkState :=
  { game := g
    disabled := List.replicate g.n false
    todo := []
    outcount := (List.range g.n).map (fun i => (Int.ofNat (g.outOf i).length))
    error := false }

namespace Oink

/-- The solver verdict sink `Oink::solve` (oink.cpp lines 312-331): marks
`node` solved with winner `win`; the strategy is stored only when the
winner owns the vertex, else `-1`; the vertex is disabled and pushed on
the todo queue.  Solving an already solved or disabled vertex is a
LOGIC_ERROR, modelled by the sticky error flag. -/
def solve (ok : OinkState) (node : Nat) (win : Nat) (strat : Int) :
    OinkState :=
  if ok.game.solved.getD node false || ok.disabled.getD node false then
    { ok with error := true }
  else
    { ok with
        game := { ok.game with
          solved := ok.game.solved.set node true
          winner := ok.game.winner.set node win
          strategy := ok.game.strategy.set node
            (if win = ok.game.ownerOf node then strat else -1) }
        disabled := ok.disabled.set node true
        todo := ok.todo ++ [node] }

/-- Body of the flush loop for the in-neighbours of a popped winner
vertex `v`: winner-owned predecessors are absorbed with strategy `v`;
loser-owned predecessors have their enabled out-degree decremented and
are absorbed when it reaches zero. -/
def flushIns (v : Nat) (winner : Nat) (ok : OinkState) : OinkState :=
  (ok.game.inOf v).foldl
    (fun ok inn =>
      if ok.game.solved.getD inn false then ok
      else if ok.game.ownerOf inn = winner then
        { ok with
            game := { ok.game with
              strategy := ok.game.strategy.set inn (Int.ofNat v)
              solved := ok.game.solved.set inn true
              winner := ok.game.winner.set inn winner }
            disabled := ok.disabled.set inn true
            todo := ok.todo ++ [inn] }
      else
        let oc := ok.outcount.getD inn 0 - 1
        let ok := { ok with outcount := ok.outcount.set inn oc }
        if oc = 0 then
          { ok with
              game := { ok.game with
                solved := ok.game.solved.set inn true
                winner := ok.game.winner.set inn winner }
              disabled := ok.disabled.set inn true
              todo := ok.todo ++ [inn] }
        else ok)
    ok

/-- The attractor-closure flush `Oink::flush` (oink.cpp lines 333-370),
fuelled.  Note the faithful early `return` (not `continue`) when the
popped vertex was already flushed (`outcount[v] == -1`). -/
def flush : Nat → OinkState → OinkState
  | 0, ok => ok
  | fuel + 1, ok =>
    match ok.todo with
    | [] => ok
    | v :: rest =>
      let ok := { ok with todo := rest }
      if ok.outcount.getD v 0 = -1 then ok
      else
        let ok := { ok with outcount := ok.outcount.set v (-1) }
        flush fuel (flushIns v (ok.game.winner.getD v 0) ok)

end Oink

/-- The loop `int prec = 0; while((1 << prec) < n_nodes) prec++;` of
ExperimentalSolver::run, fuelled (fuel `n` always suffices since
2 to the n is at least n). -/
def precLoop (n : Nat) : Nat → Nat → Nat
  | 0, p => p
  | fuel + 1, p => if 2 ^ p < n then precLoop n fuel (p + 1) else p

/-- The initial precision computed by the driver: the least `p` with
2 to the p at least `n_nodes`. -/
def precOf (n : Nat) : Nat := precLoop n n 0

/-- The full vertex list the experimental solver hands to the recursive
solver (experimental.cpp lines 232-234); note it is the complete vertex
range, regardless of the `disabled` mask. -/
def expVset (n : Nat) : List Nat := List.range n

/-- The verdict-absorbing step of ExperimentalSolver::run (lines
261-267): a still-unsolved vertex is reported to Oink::solve, winning
for its owner when the computed strategy is nonnegative, else for the
opponent. -/
def expAbsorb (strat : List Int) (ok : OinkState) (i : Nat) : OinkState :=
  if ok.game.solved.getD i false then ok
  else if strat.getD i 0 ≥ 0 then
    Oink.solve ok i (ok.game.ownerOf i) (strat.getD i 0)
  else
    Oink.solve ok i (if ok.game.ownerOf i = 0 then 1 else 0) (-1)

/-- The top-level `ExperimentalSolver::run` (experimental.cpp lines
223-268): build the zsolver state, compute the initial precision and
maximum priority, run the recursive solver on the full vertex set, then
report every still-unsolved vertex to `Oink::solve` (winner = owner when
the computed strategy is nonnegative, else the opponent).  The
process-global memo map and category counter are threaded in and out via
the `ZState`. -/
def expRun (flags zfuel : Nat) (memo : Memo) (lastCat : Nat)
    (ok : OinkState) : OinkState × ZState :=
  let g := ok.game
  let cat := lastCat
  let zs0 : ZState :=
    { vtype := List.replicate g.n cat
      strategy := List.replicate g.n 0
      degs := List.replicate g.n (-1)
      lastCategory := lastCat + 1
      memo := memo
      iters := 0 }
  let vset := expVset g.n
  let prec := precOf g.n
  let maxprio := vset.foldl (fun a v => max a (g.prioOf v)) 0
  let zs := zsolver.run g flags zfuel vset cat
    ((Int.ofNat prec), (Int.ofNat prec))
    (if flags &&& 1 ≠ 0 then 3 else 0)
    (if flags &&& 4 ≠ 0 then -1 else Int.ofNat maxprio) zs0
  let ok' := vset.foldl (expAbsorb zs.strategy) ok
  (ok', zs)

/-- The driver loop `Oink::solveLoop` (oink.cpp lines 389-426) with the
experimental solver configured and no bottom-SCC narrowing, fuelled:
while the game is unsolved, sync the mask to the solution, run the
solver, and flush the todo queue.  The memo map and category counter are
threaded between solver invocations exactly as the C++ process globals
are. -/
def solveLoop (flags zfuel ffuel : Nat) :
    Nat → OinkState × Memo × Nat → OinkState × Memo × Nat
  | 0, s => s
  | fuel + 1, (ok, memo, lastCat) =>
    if ok.game.gameSolved then (ok, memo, lastCat)
    else
      let ok := { ok with disabled := ok.game.solved }
      let p := expRun flags zfuel memo lastCat ok
      let ok := Oink.flush ffuel p.1
      solveLoop flags zfuel ffuel fuel (ok, p.2.memo, p.2.lastCategory)

/-! ## Single-parity reduction (Oink::solveSingleParity) -/

/-- Scan of the first loop of `Oink::solveSingleParity`: fold the parity
accumulator (initially -1) over the vertices; `none` models the early
`return false` on a parity clash between two enabled vertices. -/
def spScan (g : Game) (dis : List Bool) : List Nat → Int → Option Int
  | [], parity => some parity
  | i :: rest, parity =>
    if dis.getD i false then spScan g dis rest parity
    else if parity = -1 then spScan g dis rest (Int.ofNat (g.prioOf i % 2))
    else if parity = Int.ofNat (g.prioOf i % 2) then spScan g dis rest parity
    else none

/-- The reduction `Oink::solveSingleParity` (oink.cpp lines 274-310):
if every enabled vertex has the same priority parity `p`, declare player
`p` winner of all of them (winner-owned vertices get their first enabled
successor as strategy) and flush; otherwise return false having changed
nothing. -/
def solveSingleParity (ffuel : Nat) (ok : OinkState) : Bool × OinkState :=
  match spScan ok.game ok.disabled (List.range ok.game.n) (-1) with
  | none => (false, ok)
  | some parity =>
    if parity = 0 ∨ parity = 1 then
      let p := parity.toNat
      let ok' := (List.range ok.game.n).foldl
        (fun ok i =>
          if ok.disabled.getD i false then ok
          else if ok.game.ownerOf i = p then
            match (ok.game.outOf i).find?
                (fun t => ! ok.disabled.getD t false) with
            | some t => Oink.solve ok i p (Int.ofNat t)
            | none => ok
          else Oink.solve ok i p (-1))
        ok
      (true, Oink.flush ffuel ok')
    else (false, ok)

/-! ## Trivial-cycle reduction (Oink::solveTrivialCycles) -/

/-- State of `Oink::solveTrivialCycles`: the driver state plus the
`done` and `low` arrays, the Tarjan-style `res`, `scc` and search
stacks (stored most-recent-first, so `push_back` is cons and `back` is
the head), the preorder counter `pre`, the count of removed cycles, and
an observation bit recording whether a vertex that was disabled at the
moment of the push was ever pushed on the search stack. -/
structure TCState where
  ok : OinkState
  done : List Int
  low : List Int
  res : List Nat
  scc : List Nat
  stk : List Nat
  pre : Int
  cnt : Nat
  pushedDisabled : Bool
deriving Repr, DecidableEq

/-- Result of popping an SCC off `res` (the for(;;) loop of
solveTrivialCycles): updated `res`, `scc`, `low`, `done`, the highest
priority, the highest good-parity priority, the vertex attaining it,
and whether `res` ran empty (LOGIC_ERROR). -/
structure SccPop where
  res : List Nat
  scc : List Nat
  low : List Int
  done : List Int
  maxPr : Int
  maxPrPl : Int
  maxPrN : Int
  fail : Bool
deriving Repr, DecidableEq

/-- Pop vertices from `res` into `scc` until the SCC root `idx` is
reached, marking them `done = pr`, setting `low` to the SCC value `mn`,
and tracking the highest priority and the highest priority of parity
`pl` with the vertex attaining it. -/
def tcPopScc (g : Game) (idx : Nat) (pr mn : Int) (pl : Nat) :
    List Nat → List Nat → List Int → List Int → Int → Int → Int → SccPop
  | [], scc, low, done, maxPr, maxPrPl, maxPrN =>
    { res := [], scc := scc, low := low, done := done,
      maxPr := maxPr, maxPrPl := maxPrPl, maxPrN := maxPrN, fail := true }
  | nd :: res, scc, low, done, maxPr, maxPrPl, maxPrN =>
    let scc := nd :: scc
    let done := done.set nd pr
    let low := if low.getD nd 0 ≠ mn then low.set nd mn else low
    let d : Int := Int.ofNat (g.prioOf nd)
    let maxPr' := if d > maxPr then d else maxPr
    let hit := (g.prioOf nd) % 2 = pl ∧ d > maxPrPl
    let maxPrPl' := if hit then d else maxPrPl
    let maxPrN' := if hit then Int.ofNat nd else maxPrN
    if nd = idx then
      { res := res, scc := scc, low := low, done := done,
        maxPr := maxPr', maxPrPl := maxPrPl', maxPrN := maxPrN',
        fail := false }
    else tcPopScc g idx pr mn pl res scc low done maxPr' maxPrPl' maxPrN'

/-- Backward sweep over the accepted SCC (the std::queue loop): solve
every not-yet-disabled in-neighbour with matching `low` value, pushing
it for further sweeping. -/
def tcSweep (mn : Int) (pl : Nat) : Nat → List Nat → TCState → TCState
  | 0, _, t => t
  | _ + 1, [], t => t
  | fuel + 1, cur :: q, t =>
    let p := (t.ok.game.inOf cur).foldl
      (fun (p : TCState × List Nat) frm =>
        if p.1.low.getD frm 0 ≠ mn || p.1.ok.disabled.getD frm false then p
        else
          ({ p.1 with ok := Oink.solve p.1.ok frm pl (Int.ofNat cur) },
            p.2 ++ [frm]))
      (t, [])
    tcSweep mn pl fuel (q ++ p.2) p.1

/-- Scan of the out-edges of the stack top `idx` (the for-loop with
break at oink.cpp lines 123-138): returns the vertex to push if a new
one is found, else the updated minimum.  The first skip test reads
`disabled[i]` with `i` the search root, exactly as the source does. -/
def tcScanEdges (g : Game) (dis : List Bool) (done low : List Int)
    (root : Nat) (pr : Int) (pl : Nat) (bot : Int) :
    List Nat → Int → Option Nat × Int
  | [], mn => (none, mn)
  | e :: rest, mn =>
    if dis.getD root false then tcScanEdges g dis done low root pr pl bot rest mn
    else if e > root ∨ done.getD e 0 = -2 ∨ done.getD e 0 = pr ∨
        g.ownerOf e ≠ pl then
      tcScanEdges g dis done low root pr pl bot rest mn
    else if low.getD e 0 ≤ bot then (some e, mn)
    else tcScanEdges g dis done low root pr pl bot rest
      (if low.getD e 0 < mn then low.getD e 0 else mn)

/-- One DFS (the `while (!st.empty())` loop) of solveTrivialCycles from
root `root`, fuelled; `sfuel` and `ffuel` fuel the sweep and flush of an
accepted SCC. -/
def tcDfs (root : Nat) (pr : Int) (pl : Nat) (bot : Int)
    (sfuel ffuel : Nat) : Nat → TCState → TCState
  | 0, t => t
  | fuel + 1, t =>
    match t.stk with
    | [] => t
    | idx :: stkRest =>
      let t :=
        if t.low.getD idx 0 ≤ bot then
          { t with pre := t.pre + 1, low := t.low.set idx (t.pre + 1),
                   res := idx :: t.res }
        else t
      let scan := tcScanEdges t.ok.game t.ok.disabled t.done t.low root pr
        pl bot (t.ok.game.outOf idx) (t.low.getD idx 0)
      match scan.1 with
      | some e =>
        let pd := t.pushedDisabled || t.ok.disabled.getD e false
        let t := { t with stk := e :: t.stk, pushedDisabled := pd }
        tcDfs root pr pl bot sfuel ffuel fuel t
      | none =>
        if scan.2 < t.low.getD idx 0 then
          let t := { t with low := t.low.set idx scan.2, stk := stkRest }
          tcDfs root pr pl bot sfuel ffuel fuel t
        else
          let p := tcPopScc t.ok.game idx pr scan.2 pl t.res [] t.low t.done
            (-1) (-1) (-1)
          if p.fail then { t with ok := { t.ok with error := true } }
          else
          let t := { t with res := p.res, scc := p.scc, low := p.low,
                            done := p.done }
          if t.scc.length = 1 ∧ ¬ idx ∈ t.ok.game.outOf idx then
            let t := { t with done := t.done.set idx (-2), scc := [],
                              stk := stkRest }
            tcDfs root pr pl bot sfuel ffuel fuel t
          else if p.maxPr % 2 ≠ Int.ofNat pl then
            let done' := t.scc.foldl
              (fun dn nd =>
                if Int.ofNat (t.ok.game.prioOf nd) > p.maxPrPl then
                  dn.set nd (-2)
                else dn)
              t.done
            let t := { t with done := done', scc := [], stk := stkRest }
            tcDfs root pr pl bot sfuel ffuel fuel t
          else
            let t := tcSweep scan.2 pl sfuel [p.maxPrN.toNat] t
            let t := { t with ok := Oink.flush ffuel t.ok }
            let t := { t with stk := [], res := [], scc := [],
                              cnt := t.cnt + 1 }
            tcDfs root pr pl bot sfuel ffuel fuel t

/-- The outer root loop of solveTrivialCycles over vertices in
descending index order. -/
def tcRoots (sfuel ffuel dfuel : Nat) : List Nat → TCState → TCState
  | [], t => t
  | i :: rest, t =>
    if t.ok.disabled.getD i false then tcRoots sfuel ffuel dfuel rest t
    else if t.done.getD i 0 = -2 then tcRoots sfuel ffuel dfuel rest t
    else
      let pr : Int := Int.ofNat (t.ok.game.prioOf i)
      let pl := (t.ok.game.prioOf i) % 2
      if t.ok.game.ownerOf i ≠ pl then
        tcRoots sfuel ffuel dfuel rest { t with done := t.done.set i (-2) }
      else if t.done.getD i 0 = pr then tcRoots sfuel ffuel dfuel rest t
      else
        let bot := t.pre
        let pd := t.pushedDisabled || t.ok.disabled.getD i false
        let t := { t with stk := [i], pushedDisabled := pd }
        let t := tcDfs i pr pl bot sfuel ffuel dfuel t
        tcRoots sfuel ffuel dfuel rest t

/-- The reduction `Oink::solveTrivialCycles` (oink.cpp lines 50-232):
search winner-controlled SCCs among the enabled vertices, in descending
root order; accepted SCCs are solved for their controller and flushed. -/
def solveTrivialCycles (sfuel ffuel dfuel : Nat) (ok : OinkState) :
    TCState :=
  let n := ok.game.n
  let t0 : TCState :=
    { ok := ok
      done := (List.range n).map
        (fun i => if ok.disabled.getD i false then (-2 : Int) else -1)
      low := List.replicate n 0
      res := []
      scc := []
      stk := []
      pre := 0
      cnt := 0
      pushedDisabled := false }
  tcRoots sfuel ffuel dfuel (List.range n).reverse t0

/-! ## Concrete games used by the evaluation theorems -/

/-- Single-vertex game: owner 0, priority 1, self-loop.  Player 1 wins
by the parity condition. -/
def gOne : Game :=
  { n := 1, owner := [0], priority := [1], out := [[0]], inE := [[0]],
    solved := [false], winner := [0], strategy := [-1] }

/-- Two-vertex alternation game 0 -> 1 -> 0 with priorities 2, 1. -/
def gTwo : Game :=
  { n := 2, owner := [0, 1], priority := [2, 1], out := [[1], [0]],
    inE := [[1], [0]], solved := [false, false], winner := [0, 0],
    strategy := [-1, -1] }

/-- Two-vertex cycle with priorities 0, 1 and both vertices owned by
player 0; used to exhibit the ignored subgame mask. -/
def gMask : Game :=
  { n := 2, owner := [0, 0], priority := [0, 1], out := [[1], [0]],
    inE := [[1], [0]], solved := [false, false], winner := [0, 0],
    strategy := [-1, -1] }

/-- Driver state in which the bottom-SCC narrowing has masked vertex 0
(disabled though unsolved), as `Oink::solveLoop` produces when
`bottomSCC` selects the component of vertex 1. -/
def stMask : OinkState :=
  { game := gMask, disabled := [true, false], todo := [],
    outcount := [1, 1], error := false }

/-- Three-vertex game for the trivial-cycle reduction: vertex 2 is a
winner-controlled self-loop (owner 0, priority 2) whose flush absorbs
vertex 0; vertex 1 (owner 1, priority 1) has edges to 0 and itself. -/
def gTc : Game :=
  { n := 3, owner := [1, 1, 0], priority := [1, 1, 2],
    out := [[2], [0, 1], [2]], inE := [[1], [1], [0, 2]],
    solved := [false, false, false], winner := [0, 0, 0],
    strategy := [-1, -1, -1] }

/-- Two-vertex game of mixed parity for the single-parity witness. -/
def gPar : Game :=
  { n := 2, owner := [1, 0], priority := [3, 2], out := [[1], [0]],
    inE := [[1], [0]], solved := [false, false], winner := [0, 0],
    strategy := [-1, -1] }

/-! ## Spec-side attractor notions and proof infrastructure (claim C8) -/

/-- Spec-side notion following the claim's wording: player `whose` can
force the play from `v` into the set of vertices initially labelled
`cat_yes` (given by `yes0`), while the play remains inside the subgame
`vs` — i.e. in the game restricted to `vs`, where edges leaving `vs`
are unavailable. -/
inductive CanForce (g : Game) (vs : List Nat) (whose : Nat)
    (yes0 : Nat → Prop) : Nat → Prop
  | base (v : Nat) : v ∈ vs → yes0 v → CanForce g vs whose yes0 v
  | own (v w : Nat) : v ∈ vs → ¬yes0 v → g.ownerOf v = whose →
      w ∈ g.outOf v → w ∈ vs → CanForce g vs whose yes0 w →
      CanForce g vs whose yes0 v
  | opp (v w0 : Nat) : v ∈ vs → ¬yes0 v → g.ownerOf v ≠ whose →
      w0 ∈ g.outOf v → w0 ∈ vs →
      (∀ w ∈ g.outOf v, w ∈ vs → CanForce g vs whose yes0 w) →
      CanForce g vs whose yes0 v
/-- Number of successors of `v` inside `vs` that are not yet popped
from the worklist: either still unlabelled, or labelled but pending. -/
def attrCount (g : Game) (vs P : List Nat) (cat_yes : Nat) (st : ZState)
    (v : Nat) : Nat :=
  ((g.outOf v).filter
    (fun w => decide (w ∈ vs ∧ (st.vtype.getD w 0 ≠ cat_yes ∨ w ∈ P)))).length
/-- Static preconditions of `zsolver::attractor`: the claim's stated
precondition (`vtype[v]` is `cat_no` or `cat_yes` iff `v ∈ vs`) plus
well-formedness of the graph representation (array lengths, in/out
duality, no duplicate edges) and the `degs` hygiene the surrounding
code maintains (all entries at most `-1` between calls). -/
structure AttrPre (g : Game) (vs : List Nat) (cat_no cat_yes : Nat)
    (st : ZState) : Prop where
  vsNodup : vs.Nodup
  vsLt : ∀ v ∈ vs, v < g.n
  vtypeIff : ∀ v, v < g.n →
    ((st.vtype.getD v 0 = cat_no ∨ st.vtype.getD v 0 = cat_yes) ↔ v ∈ vs)
  catNe : cat_no ≠ cat_yes
  outNodup : ∀ v, v < g.n → (g.outOf v).Nodup
  outLt : ∀ v, v < g.n → ∀ w ∈ g.outOf v, w < g.n
  inLt : ∀ w, w < g.n → ∀ v ∈ g.inOf w, v < g.n
  inNodup : ∀ w, w < g.n → (g.inOf w).Nodup
  dual : ∀ v, v < g.n → ∀ w, w < g.n → (w ∈ g.outOf v ↔ v ∈ g.inOf w)
  lenV : st.vtype.length = g.n
  lenS : st.strategy.length = g.n
  lenD : st.degs.length = g.n
  degsNeg : ∀ j, j < g.n → st.degs.getD j 0 ≤ -1
/-- Worklist invariant of the attractor loop, relative to the entry
state `st0`, the current pending queue `P` and the current state. -/
structure AttrInv (g : Game) (vs : List Nat) (whose cat_yes : Nat)
    (st0 : ZState) (P : List Nat) (st : ZState) : Prop where
  lenV : st.vtype.length = g.n
  lenS : st.strategy.length = g.n
  lenD : st.degs.length = g.n
  outside : ∀ v, v < g.n → v ∉ vs →
    st.vtype.getD v 0 = st0.vtype.getD v 0 ∧
    st.strategy.getD v 0 = st0.strategy.getD v 0
  evolve : ∀ v, v < g.n →
    st.vtype.getD v 0 = st0.vtype.getD v 0 ∨
    (st.vtype.getD v 0 = cat_yes ∧ v ∈ vs)
  sound : ∀ v, v < g.n → st.vtype.getD v 0 = cat_yes →
    CanForce g vs whose (fun u => st0.vtype.getD u 0 = cat_yes) v
  strat : ∀ v, v < g.n → st.vtype.getD v 0 = cat_yes →
    st0.vtype.getD v 0 ≠ cat_yes →
    (g.ownerOf v = whose → ∃ w, w ∈ g.outOf v ∧ w ∈ vs ∧
      st.vtype.getD w 0 = cat_yes ∧ st.strategy.getD v 0 = (w : Int)) ∧
    (g.ownerOf v ≠ whose → st.strategy.getD v 0 = -1)
  pendMem : ∀ v ∈ P, v < g.n ∧ v ∈ vs ∧ st.vtype.getD v 0 = cat_yes
  pendNodup : P.Nodup
  degsOut : ∀ v, v < g.n → v ∉ vs → st.degs.getD v 0 ≤ -1
  degsMk : ∀ v, v < g.n → v ∈ vs → st.vtype.getD v 0 = cat_yes →
    st.degs.getD v 0 ≤ 0
  degsOwn : ∀ v, v < g.n → v ∈ vs → st.vtype.getD v 0 ≠ cat_yes →
    g.ownerOf v = whose →
    st.degs.getD v 0 = 1 ∧
    ∀ w ∈ g.outOf v, w ∈ vs → st.vtype.getD w 0 = cat_yes → w ∈ P
  degsOpp : ∀ v, v < g.n → v ∈ vs → st.vtype.getD v 0 ≠ cat_yes →
    g.ownerOf v ≠ whose →
    st.degs.getD v 0 = (attrCount g vs P cat_yes st v : Int) ∧
    (st.degs.getD v 0 = 0 →
      (g.outOf v).filter (fun w => decide (w ∈ vs)) = [])
/-- Mid-step invariant while the in-neighbours of the popped vertex `w`
are being processed: the suffix `R` of `w`'s in-neighbour list still
awaits its decrement, so the residual degrees of unlabelled
opponent vertices in `R` are one higher than their popped-successor
count, and `w`'s labelling may not yet be reflected for vertices
in `R`. -/
structure AttrMid (g : Game) (vs : List Nat) (whose cat_yes : Nat)
    (st0 : ZState) (w : Nat) (R : List Nat) (P : List Nat)
    (st : ZState) : Prop where
  lenV : st.vtype.length = g.n
  lenS : st.strategy.length = g.n
  lenD : st.degs.length = g.n
  wLt : w < g.n
  wVs : w ∈ vs
  wMk : st.vtype.getD w 0 = cat_yes
  wNotP : w ∉ P
  outside : ∀ v, v < g.n → v ∉ vs →
    st.vtype.getD v 0 = st0.vtype.getD v 0 ∧
    st.strategy.getD v 0 = st0.strategy.getD v 0
  evolve : ∀ v, v < g.n →
    st.vtype.getD v 0 = st0.vtype.getD v 0 ∨
    (st.vtype.getD v 0 = cat_yes ∧ v ∈ vs)
  sound : ∀ v, v < g.n → st.vtype.getD v 0 = cat_yes →
    CanForce g vs whose (fun u => st0.vtype.getD u 0 = cat_yes) v
  strat : ∀ v, v < g.n → st.vtype.getD v 0 = cat_yes →
    st0.vtype.getD v 0 ≠ cat_yes →
    (g.ownerOf v = whose → ∃ u, u ∈ g.outOf v ∧ u ∈ vs ∧
      st.vtype.getD u 0 = cat_yes ∧ st.strategy.getD v 0 = (u : Int)) ∧
    (g.ownerOf v ≠ whose → st.strategy.getD v 0 = -1)
  pendMem : ∀ v ∈ P, v < g.n ∧ v ∈ vs ∧ st.vtype.getD v 0 = cat_yes
  pendNodup : P.Nodup
  degsOut : ∀ v, v < g.n → v ∉ vs → st.degs.getD v 0 ≤ -1
  degsMk : ∀ v, v < g.n → v ∈ vs → st.vtype.getD v 0 = cat_yes →
    st.degs.getD v 0 ≤ 0
  degsOwn : ∀ v, v < g.n → v ∈ vs → st.vtype.getD v 0 ≠ cat_yes →
    g.ownerOf v = whose →
    st.degs.getD v 0 = 1 ∧
    ∀ u ∈ g.outOf v, u ∈ vs → st.vtype.getD u 0 = cat_yes →
      (u ∈ P ∨ (u = w ∧ v ∈ R))
  degsOpp : ∀ v, v < g.n → v ∈ vs → st.vtype.getD v 0 ≠ cat_yes →
    g.ownerOf v ≠ whose →
    st.degs.getD v 0 =
      (attrCount g vs P cat_yes st v : Int) + (if v ∈ R then 1 else 0) ∧
    (st.degs.getD v 0 = 0 →
      (g.outOf v).filter (fun u => decide (u ∈ vs)) = [])
/-- The residual degree `attrInit` assigns to an unlabelled vertex of
the subgame. -/
def initDeg (g : Game) (whose cat_no cat_yes : Nat) (st : ZState)
    (j : Nat) : Int :=
  if g.ownerOf j = whose then 1
  else (((g.outOf j).filter (fun w =>
    decide (st.vtype.getD w 0 = cat_no ∨ st.vtype.getD w 0 = cat_yes))).length : Int)
/-- The body of the attractor worklist step, as a named function (the
anonymous lambda folded by `attrStep` over the in-neighbours of the
popped vertex `w`). -/
def attrStepF (g : Game) (whose cat_yes w : Nat) :
    ZState × List Nat → Nat → ZState × List Nat := fun p u =>
  let d := p.1.degs.getD u 0 - 1
  let st' := { p.1 with degs := p.1.degs.set u d }
  if d = 0 then
    ({ st' with
        vtype := st'.vtype.set u cat_yes,
        strategy := st'.strategy.set u (if g.ownerOf u = whose then (w : Int) else -1) },
      p.2 ++ [u])
  else (st', p.2)
def zwit : ZState :=
  { vtype := [5, 7], strategy := [0, 0], degs := [-1, -1],
    lastCategory := 0, memo := [], iters := 0 }

/-! ## List access helpers -/

theorem getD_set_self {α : Type} (l : List α) (i : Nat) (a d : α)
    (h : i < l.length) : (l.set i a).getD i d = a := by
  simp [List.getD_eq_getElem?_getD, List.getElem?_set_self',
    List.getElem?_eq_getElem h]

theorem getD_set_ne {α : Type} (l : List α) {i j : Nat} (a d : α)
    (h : i ≠ j) : (l.set i a).getD j d = l.getD j d := by
  simp [List.getD_eq_getElem?_getD, List.getElem?_set_ne h]

/-! ## Properties of Oink::solve and the absorb fold -/

theorem solve_ok_eq (ok : OinkState) (node win : Nat) (strat : Int)
    (hs : ok.game.solved.getD node false = false)
    (hd : ok.disabled.getD node false = false) :
    Oink.solve ok node win strat =
      { ok with
          game := { ok.game with
            solved := ok.game.solved.set node true
            winner := ok.game.winner.set node win
            strategy := ok.game.strategy.set node
              (if win = ok.game.ownerOf node then strat else -1) }
          disabled := ok.disabled.set node true
          todo := ok.todo ++ [node] } := by
  unfold Oink.solve
  rw [hs, hd]
  rfl

theorem solve_error_eq (ok : OinkState) (node win : Nat) (strat : Int)
    (hs : ok.game.solved.getD node false = true) :
    Oink.solve ok node win strat = { ok with error := true } := by
  unfold Oink.solve
  rw [hs]
  rfl

/-- Invariant carried through the verdict-absorbing fold of
ExperimentalSolver::run. -/
theorem absorb_fold (strat : List Int) :
    ∀ (l : List Nat) (ok : OinkState),
      l.Nodup →
      (∀ i ∈ l, i < ok.game.n) →
      (∀ i ∈ l, ok.game.solved.getD i false = false) →
      (∀ i ∈ l, ok.game.ownerOf i = 0 ∨ ok.game.ownerOf i = 1) →
      ok.game.solved.length = ok.game.n →
      ok.game.winner.length = ok.game.n →
      ok.disabled.length = ok.game.n →
      (∀ j, ok.disabled.getD j false = ok.game.solved.getD j false) →
      ok.error = false →
      (l.foldl (expAbsorb strat) ok).error = false ∧
      (l.foldl (expAbsorb strat) ok).game.n = ok.game.n ∧
      (l.foldl (expAbsorb strat) ok).game.owner = ok.game.owner ∧
      (l.foldl (expAbsorb strat) ok).game.inE = ok.game.inE ∧
      (l.foldl (expAbsorb strat) ok).game.solved.length = ok.game.n ∧
      (l.foldl (expAbsorb strat) ok).game.winner.length = ok.game.n ∧
      (l.foldl (expAbsorb strat) ok).disabled.length = ok.game.n ∧
      (∀ j, (l.foldl (expAbsorb strat) ok).disabled.getD j false
          = (l.foldl (expAbsorb strat) ok).game.solved.getD j false) ∧
      (∀ j, ok.game.solved.getD j false = true →
        (l.foldl (expAbsorb strat) ok).game.solved.getD j false = true ∧
        (l.foldl (expAbsorb strat) ok).game.winner.getD j 0
          = ok.game.winner.getD j 0) ∧
      (∀ i ∈ l, (l.foldl (expAbsorb strat) ok).game.solved.getD i false
          = true ∧
        ((l.foldl (expAbsorb strat) ok).game.winner.getD i 0 = 0 ∨
          (l.foldl (expAbsorb strat) ok).game.winner.getD i 0 = 1)) := by
  intro l
  induction l with
  | nil =>
    intro ok _ _ _ _ h4 h5 h6 h7 h8
    exact ⟨h8, rfl, rfl, rfl, h4, h5, h6, h7,
      fun j hj => ⟨hj, rfl⟩, fun i hi => absurd hi (List.not_mem_nil i)⟩
  | cons i l ih =>
    intro ok hnd hlt huns howner hlen1 hlen2 hlen3 hsync herr
    have hin : ok.game.solved.getD i false = false :=
      huns i (List.mem_cons_self _ _)
    have hid : ok.disabled.getD i false = false := by rw [hsync]; exact hin
    have hiltn : i < ok.game.n := hlt i (List.mem_cons_self _ _)
    -- the step solves vertex i with some winner in 0/1
    obtain ⟨win, hwin, hstep⟩ :
        ∃ win : Nat, (win = 0 ∨ win = 1) ∧
          l.foldl (expAbsorb strat) (expAbsorb strat ok i) =
            l.foldl (expAbsorb strat)
              { ok with
                  game := { ok.game with
                    solved := ok.game.solved.set i true
                    winner := ok.game.winner.set i win
                    strategy := ok.game.strategy.set i
                      (if win = ok.game.ownerOf i then
                        (if strat.getD i 0 ≥ 0 then strat.getD i 0 else -1)
                        else -1) }
                  disabled := ok.disabled.set i true
                  todo := ok.todo ++ [i] } := by
      unfold expAbsorb
      rw [hin]
      by_cases hpos : strat.getD i 0 ≥ 0
      · refine ⟨ok.game.ownerOf i, howner i (List.mem_cons_self _ _), ?_⟩
        rw [if_neg (by simp), if_pos hpos,
          solve_ok_eq ok i (ok.game.ownerOf i) (strat.getD i 0) hin hid,
          if_pos hpos]
      · refine ⟨if ok.game.ownerOf i = 0 then 1 else 0, ?_, ?_⟩
        · by_cases h0 : ok.game.ownerOf i = 0 <;> simp [h0]
        · rw [if_neg (by simp), if_neg hpos,
            solve_ok_eq ok i _ (-1) hin hid]
          rw [show (if (if ok.game.ownerOf i = 0 then 1 else 0)
              = ok.game.ownerOf i then (-1 : Int) else -1) = -1
            from ite_self _]
          rw [show (if (if ok.game.ownerOf i = 0 then 1 else 0)
              = ok.game.ownerOf i then
                (if strat.getD i 0 ≥ 0 then strat.getD i 0 else -1)
              else (-1 : Int)) = -1 by rw [if_neg hpos, ite_self]]
    set ok1 : OinkState :=
      { ok with
          game := { ok.game with
            solved := ok.game.solved.set i true
            winner := ok.game.winner.set i win
            strategy := ok.game.strategy.set i
              (if win = ok.game.ownerOf i then
                (if strat.getD i 0 ≥ 0 then strat.getD i 0 else -1)
                else -1) }
          disabled := ok.disabled.set i true
          todo := ok.todo ++ [i] } with hok1
    have hfold : (i :: l).foldl (expAbsorb strat) ok
        = l.foldl (expAbsorb strat) ok1 := by
      rw [List.foldl_cons, hstep]
    have hnd' : l.Nodup := (List.nodup_cons.mp hnd).2
    have hnotmem : i ∉ l := (List.nodup_cons.mp hnd).1
    have hres := ih ok1 hnd'
      (fun j hj => hlt j (List.mem_cons_of_mem _ hj))
      (fun j hj => by
        have hji : i ≠ j := fun h => hnotmem (h ▸ hj)
        show (ok.game.solved.set i true).getD j false = false
        rw [getD_set_ne _ _ _ hji]
        exact huns j (List.mem_cons_of_mem _ hj))
      (fun j hj => howner j (List.mem_cons_of_mem _ hj))
      (by simpa using hlen1)
      (by simpa using hlen2)
      (by simpa using hlen3)
      (fun j => by
        by_cases hji : j = i
        · subst hji
          show (ok.disabled.set j true).getD j false
            = (ok.game.solved.set j true).getD j false
          rw [getD_set_self _ _ _ _ (by rw [hlen3]; exact hiltn),
            getD_set_self _ _ _ _ (by rw [hlen1]; exact hiltn)]
        · show (ok.disabled.set i true).getD j false
            = (ok.game.solved.set i true).getD j false
          rw [getD_set_ne _ _ _ (fun h => hji h.symm),
            getD_set_ne _ _ _ (fun h => hji h.symm)]
          exact hsync j)
      herr
    rw [hfold]
    obtain ⟨r1, r2, r3, r3b, r4, r5, r6, r7, r8, r9⟩ := hres
    have hsolved1 : ok1.game.solved.getD i false = true :=
      getD_set_self _ _ _ _ (by rw [hlen1]; exact hiltn)
    have hwinner1 : ok1.game.winner.getD i 0 = win :=
      getD_set_self _ _ _ _ (by rw [hlen2]; exact hiltn)
    refine ⟨r1, r2, r3, r3b, by simpa using r4, by simpa using r5,
      by simpa using r6, r7, ?_, ?_⟩
    · intro j hj
      have hji : i ≠ j := by
        intro h
        subst h
        rw [hin] at hj
        cases hj
      have hj1 : ok1.game.solved.getD j false = true := by
        show (ok.game.solved.set i true).getD j false = true
        rw [getD_set_ne _ _ _ hji]
        exact hj
      obtain ⟨m1, m2⟩ := r8 j hj1
      refine ⟨m1, ?_⟩
      rw [m2]
      show (ok.game.winner.set i win).getD j 0 = ok.game.winner.getD j 0
      rw [getD_set_ne _ _ _ hji]
    · intro j hj
      rcases List.mem_cons.mp hj with rfl | hj'
      · obtain ⟨m1, m2⟩ := r8 j hsolved1
        rw [m2, hwinner1]
        exact ⟨m1, hwin⟩
      · exact r9 j hj'

/-- A fold whose step fixes the accumulator is the identity. -/
theorem foldl_id_of {α β : Type} (f : β → α → β) (l : List α) (b : β)
    (h : ∀ a ∈ l, f b a = b) : l.foldl f b = b := by
  induction l with
  | nil => rfl
  | cons a l ih =>
    rw [List.foldl_cons, h a (List.mem_cons_self _ _)]
    exact ih (fun x hx => h x (List.mem_cons_of_mem _ hx))

/-- When every vertex is already solved, flushIns changes nothing: every
in-neighbour is skipped by the solved test. -/
theorem flushIns_of_all_solved (v winner : Nat) (ok : OinkState)
    (hall : ∀ i, i < ok.game.n → ok.game.solved.getD i false = true)
    (hlen : ok.game.inE.length = ok.game.n)
    (hwf : ∀ u, u < ok.game.n → ∀ w ∈ ok.game.inOf u, w < ok.game.n) :
    Oink.flushIns v winner ok = ok := by
  have hmem : ∀ w ∈ ok.game.inOf v, ok.game.solved.getD w false = true := by
    intro w hw
    by_cases hv : v < ok.game.n
    · exact hall w (hwf v hv w hw)
    · exfalso
      have hemp : ok.game.inOf v = [] := by
        unfold Game.inOf
        rw [List.getD_eq_default]
        omega
      rw [hemp] at hw
      cases hw
  unfold Oink.flushIns
  refine foldl_id_of _ _ _ (fun inn hinn => ?_)
  rw [hmem inn hinn]
  rfl

/-- Unfolding of Oink.flush when the todo queue is nonempty. -/
theorem flush_cons (fuel : Nat) (ok : OinkState) (v : Nat)
    (rest : List Nat) (h : ok.todo = v :: rest) :
    Oink.flush (fuel + 1) ok =
      (if ok.outcount.getD v 0 = -1 then { ok with todo := rest }
       else Oink.flush fuel (Oink.flushIns v (ok.game.winner.getD v 0)
         { ok with todo := rest, outcount := ok.outcount.set v (-1) })) := by
  conv_lhs => rw [Oink.flush, h]

/-- When every vertex is already solved, flush only pops the todo queue
and stamps outcount; the game, the mask and the error flag are
untouched. -/
theorem flush_of_all_solved (fuel : Nat) :
    ∀ (ok : OinkState),
      (∀ i, i < ok.game.n → ok.game.solved.getD i false = true) →
      ok.game.inE.length = ok.game.n →
      (∀ u, u < ok.game.n → ∀ w ∈ ok.game.inOf u, w < ok.game.n) →
      (Oink.flush fuel ok).game = ok.game ∧
      (Oink.flush fuel ok).disabled = ok.disabled ∧
      (Oink.flush fuel ok).error = ok.error := by
  induction fuel with
  | zero => intro ok _ _ _; exact ⟨rfl, rfl, rfl⟩
  | succ fuel ih =>
    intro ok hall hlen hwf
    rcases htodo : ok.todo with _ | ⟨v, rest⟩
    · have : Oink.flush (fuel + 1) ok = ok := by
        conv_lhs => rw [Oink.flush, htodo]
      rw [this]
      exact ⟨rfl, rfl, rfl⟩
    · rw [flush_cons fuel ok v rest htodo]
      by_cases hoc : ok.outcount.getD v 0 = -1
      · rw [if_pos hoc]
        exact ⟨rfl, rfl, rfl⟩
      · rw [if_neg hoc]
        rw [flushIns_of_all_solved v (ok.game.winner.getD v 0)
          { ok with todo := rest, outcount := ok.outcount.set v (-1) }
          hall hlen hwf]
        exact ih _ hall hlen hwf

/-- A game whose vertices are all solved satisfies gameSolved. -/
theorem gameSolved_of_all (g : Game)
    (hlen : g.solved.length = g.n)
    (hall : ∀ i, i < g.n → g.solved.getD i false = true) :
    g.gameSolved = true := by
  unfold Game.gameSolved
  rw [List.all_eq_true]
  intro b hb
  obtain ⟨i, hi, hget⟩ := List.mem_iff_getElem.mp hb
  have : g.solved.getD i false = true := hall i (by omega)
  rw [List.getD_eq_getElem?_getD, List.getElem?_eq_getElem hi] at this
  simp only [Option.getD_some] at this
  rw [hget] at this
  exact this

/-- Once the game is solved, solveLoop returns its state unchanged,
whatever fuel is left. -/
theorem solveLoop_of_solved (flags zfuel ffuel : Nat) (fuel : Nat)
    (s : OinkState × Memo × Nat) (h : s.1.game.gameSolved = true) :
    solveLoop flags zfuel ffuel fuel s = s := by
  cases fuel with
  | zero => rfl
  | succ fuel =>
    obtain ⟨ok, memo, lc⟩ := s
    simp only [solveLoop]
    rw [if_pos h]

/-! ## Properties of the single-parity scan -/

theorem spScan_cons (g : Game) (dis : List Bool) (i : Nat) (rest : List Nat)
    (p : Int) :
    spScan g dis (i :: rest) p =
      if dis.getD i false then spScan g dis rest p
      else if p = -1 then spScan g dis rest (Int.ofNat (g.prioOf i % 2))
      else if p = Int.ofNat (g.prioOf i % 2) then spScan g dis rest p
      else none := rfl

theorem spScan_some_eq (g : Game) (dis : List Bool) :
    ∀ (l : List Nat) (p q : Int), 0 ≤ p →
      spScan g dis l p = some q → q = p := by
  intro l
  induction l with
  | nil =>
    intro p q _ h
    have h' : some p = some q := h
    exact (Option.some.inj h').symm
  | cons i rest ih =>
    intro p q hp h
    rw [spScan_cons] at h
    by_cases hd : dis.getD i false
    · rw [if_pos hd] at h
      exact ih p q hp h
    · rw [if_neg hd] at h
      have hne : ¬ p = -1 := by omega
      rw [if_neg hne] at h
      by_cases he : p = Int.ofNat (g.prioOf i % 2)
      · rw [if_pos he] at h
        exact ih p q hp h
      · rw [if_neg he] at h
        cases h

theorem spScan_started_none (g : Game) (dis : List Bool) :
    ∀ (l : List Nat) (p : Int), 0 ≤ p →
      (spScan g dis l p = none ↔
        ∃ j ∈ l, dis.getD j false = false ∧ Int.ofNat (g.prioOf j % 2) ≠ p) := by
  intro l
  induction l with
  | nil =>
    intro p _
    constructor
    · intro h; cases h
    · rintro ⟨j, hj, _⟩; cases hj
  | cons i rest ih =>
    intro p hp
    have hne : ¬ p = -1 := by omega
    rw [spScan_cons]
    by_cases hd : dis.getD i false
    · rw [if_pos hd, ih p hp]
      constructor
      · rintro ⟨j, hj, h1, h2⟩; exact ⟨j, List.mem_cons_of_mem _ hj, h1, h2⟩
      · rintro ⟨j, hj, h1, h2⟩
        rcases List.mem_cons.mp hj with rfl | hj'
        · rw [hd] at h1; cases h1
        · exact ⟨j, hj', h1, h2⟩
    · rw [if_neg hd, if_neg hne]
      by_cases he : p = Int.ofNat (g.prioOf i % 2)
      · rw [if_pos he, ih p hp]
        constructor
        · rintro ⟨j, hj, h1, h2⟩; exact ⟨j, List.mem_cons_of_mem _ hj, h1, h2⟩
        · rintro ⟨j, hj, h1, h2⟩
          rcases List.mem_cons.mp hj with rfl | hj'
          · exact absurd he.symm h2
          · exact ⟨j, hj', h1, h2⟩
      · rw [if_neg he]
        have hd' : dis.getD i false = false := by
          simpa using hd
        constructor
        · intro _
          exact ⟨i, List.mem_cons_self _ _, hd', fun hc => he (hc.symm)⟩
        · intro _; rfl

theorem spScan_neg_some (g : Game) (dis : List Bool) :
    ∀ (l : List Nat),
      (spScan g dis l (-1) = some (-1) ↔
        ∀ i ∈ l, dis.getD i false = true) := by
  intro l
  induction l with
  | nil =>
    constructor
    · intro _ i hi; cases hi
    · intro _; rfl
  | cons i rest ih =>
    rw [spScan_cons]
    by_cases hd : dis.getD i false
    · rw [if_pos hd, ih]
      constructor
      · intro h j hj
        rcases List.mem_cons.mp hj with rfl | hj'
        · exact hd
        · exact h j hj'
      · intro h j hj; exact h j (List.mem_cons_of_mem _ hj)
    · rw [if_neg hd, if_pos rfl]
      constructor
      · intro h
        have heq := spScan_some_eq g dis rest (Int.ofNat (g.prioOf i % 2))
          (-1) (Int.ofNat_nonneg _) h
        exfalso
        have h0 : (0 : Int) ≤ Int.ofNat (g.prioOf i % 2) := Int.ofNat_nonneg _
        rw [← heq] at h0
        exact absurd h0 (by decide)
      · intro h
        exact absurd (h i (List.mem_cons_self _ _)) hd

theorem spScan_neg_none (g : Game) (dis : List Bool) :
    ∀ (l : List Nat),
      (spScan g dis l (-1) = none ↔
        ∃ i ∈ l, ∃ j ∈ l, dis.getD i false = false ∧
          dis.getD j false = false ∧ g.prioOf i % 2 ≠ g.prioOf j % 2) := by
  intro l
  induction l with
  | nil =>
    constructor
    · intro h; cases h
    · rintro ⟨i, hi, _⟩; cases hi
  | cons i rest ih =>
    rw [spScan_cons]
    by_cases hd : dis.getD i false
    · rw [if_pos hd, ih]
      constructor
      · rintro ⟨a, ha, b, hb, h1, h2, h3⟩
        exact ⟨a, List.mem_cons_of_mem _ ha, b, List.mem_cons_of_mem _ hb,
          h1, h2, h3⟩
      · rintro ⟨a, ha, b, hb, h1, h2, h3⟩
        rcases List.mem_cons.mp ha with rfl | ha'
        · rw [hd] at h1; cases h1
        rcases List.mem_cons.mp hb with rfl | hb'
        · rw [hd] at h2; cases h2
        exact ⟨a, ha', b, hb', h1, h2, h3⟩
    · rw [if_neg hd, if_pos rfl]
      rw [spScan_started_none g dis rest (Int.ofNat (g.prioOf i % 2))
        (Int.ofNat_nonneg _)]
      have hd' : dis.getD i false = false := by
        simpa using hd
      constructor
      · rintro ⟨j, hj, h1, h2⟩
        refine ⟨i, List.mem_cons_self _ _, j, List.mem_cons_of_mem _ hj,
          hd', h1, ?_⟩
        intro hc
        exact h2 (by rw [hc])
      · rintro ⟨a, ha, b, hb, h1, h2, h3⟩
        rcases List.mem_cons.mp ha with ha' | ha'
        · subst ha'
          rcases List.mem_cons.mp hb with hb' | hb'
          · subst hb'
            exact absurd rfl h3
          · refine ⟨b, hb', h2, ?_⟩
            intro hc
            exact h3 (Int.ofNat.inj hc).symm
        · rcases List.mem_cons.mp hb with hb' | hb'
          · subst hb'
            refine ⟨a, ha', h1, ?_⟩
            intro hc
            exact h3 (Int.ofNat.inj hc)
          · by_cases hab : g.prioOf a % 2 = g.prioOf i % 2
            · refine ⟨b, hb', h2, ?_⟩
              intro hc
              exact h3 (hab.trans (Int.ofNat.inj hc).symm)
            · refine ⟨a, ha', h1, ?_⟩
              intro hc
              exact hab (Int.ofNat.inj hc)

theorem spScan_neg_cases (g : Game) (dis : List Bool) :
    ∀ (l : List Nat) (q : Int), spScan g dis l (-1) = some q →
      q = -1 ∨ q = 0 ∨ q = 1 := by
  intro l
  induction l with
  | nil =>
    intro q h
    have h' : some (-1 : Int) = some q := h
    left
    exact (Option.some.inj h').symm
  | cons i rest ih =>
    intro q h
    rw [spScan_cons] at h
    by_cases hd : dis.getD i false
    · rw [if_pos hd] at h
      exact ih q h
    · rw [if_neg hd, if_pos rfl] at h
      have heq := spScan_some_eq g dis rest (Int.ofNat (g.prioOf i % 2)) q
        (Int.ofNat_nonneg _) h
      rcases Nat.mod_two_eq_zero_or_one (g.prioOf i) with h2 | h2
      · exact Or.inr (Or.inl (by rw [heq, h2]; rfl))
      · exact Or.inr (Or.inr (by rw [heq, h2]; rfl))

theorem solveSingleParity_of_none (ffuel : Nat) (ok : OinkState)
    (h : spScan ok.game ok.disabled (List.range ok.game.n) (-1) = none) :
    solveSingleParity ffuel ok = (false, ok) := by
  unfold solveSingleParity
  rw [h]

theorem solveSingleParity_of_neg (ffuel : Nat) (ok : OinkState)
    (h : spScan ok.game ok.disabled (List.range ok.game.n) (-1)
      = some (-1)) :
    solveSingleParity ffuel ok = (false, ok) := by
  unfold solveSingleParity
  rw [h]
  norm_num

theorem solveSingleParity_of_pos (ffuel : Nat) (ok : OinkState) (q : Int)
    (hq : q = 0 ∨ q = 1)
    (h : spScan ok.game ok.disabled (List.range ok.game.n) (-1) = some q) :
    (solveSingleParity ffuel ok).1 = true := by
  unfold solveSingleParity
  rw [h]
  have : (if q = 0 ∨ q = 1 then true else false) = true := by
    rw [if_pos hq]
  simp only [if_pos hq]

/-- Claim C10: Oink::solveSingleParity returns false iff no vertex is
enabled or two enabled vertices have priorities of different parity, and
whenever it returns false the game solution, the disabled mask and the
outcount array (indeed the whole driver state) are unchanged. -/
theorem claim_C10 (ffuel : Nat) (ok : OinkState) :
    ((solveSingleParity ffuel ok).1 = false ↔
      ((∀ i, i < ok.game.n → ok.disabled.getD i false = true) ∨
        (∃ i, i < ok.game.n ∧ ∃ j, j < ok.game.n ∧
          ok.disabled.getD i false = false ∧
          ok.disabled.getD j false = false ∧
          ok.game.prioOf i % 2 ≠ ok.game.prioOf j % 2))) ∧
    ((solveSingleParity ffuel ok).1 = false →
      (solveSingleParity ffuel ok).2 = ok) := by
  have main :
      (solveSingleParity ffuel ok).1 = false →
        solveSingleParity ffuel ok = (false, ok) := by
    intro hf
    rcases h : spScan ok.game ok.disabled (List.range ok.game.n) (-1)
      with _ | q
    · exact solveSingleParity_of_none ffuel ok h
    · rcases spScan_neg_cases ok.game ok.disabled _ q h with rfl | rfl | rfl
      · exact solveSingleParity_of_neg ffuel ok h
      · rw [solveSingleParity_of_pos ffuel ok 0 (Or.inl rfl) h] at hf
        cases hf
      · rw [solveSingleParity_of_pos ffuel ok 1 (Or.inr rfl) h] at hf
        cases hf
  constructor
  · constructor
    · intro hf
      rcases h : spScan ok.game ok.disabled (List.range ok.game.n) (-1)
        with _ | q
      · right
        obtain ⟨a, ha, b, hb, h1, h2, h3⟩ :=
          (spScan_neg_none ok.game ok.disabled (List.range ok.game.n)).mp h
        exact ⟨a, List.mem_range.mp ha, b, List.mem_range.mp hb, h1, h2, h3⟩
      · rcases spScan_neg_cases ok.game ok.disabled _ q h with rfl | rfl | rfl
        · left
          intro i hi
          exact (spScan_neg_some ok.game ok.disabled
            (List.range ok.game.n)).mp h i (List.mem_range.mpr hi)
        · rw [solveSingleParity_of_pos ffuel ok 0 (Or.inl rfl) h] at hf
          cases hf
        · rw [solveSingleParity_of_pos ffuel ok 1 (Or.inr rfl) h] at hf
          cases hf
    · intro hcon
      rcases h : spScan ok.game ok.disabled (List.range ok.game.n) (-1)
        with _ | q
      · rw [solveSingleParity_of_none ffuel ok h]
      · rcases spScan_neg_cases ok.game ok.disabled _ q h with rfl | rfl | rfl
        · rw [solveSingleParity_of_neg ffuel ok h]
        all_goals
          rcases hcon with hall | ⟨a, ha, b, hb, h1, h2, h3⟩
          · exact absurd ((spScan_neg_some ok.game ok.disabled _).mpr
              (fun i hi => hall i (List.mem_range.mp hi)))
              (by rw [h]; intro hc; cases Option.some.inj hc)
          · have hn : spScan ok.game ok.disabled (List.range ok.game.n) (-1)
                = none := (spScan_neg_none ok.game ok.disabled _).mpr
              ⟨a, List.mem_range.mpr ha, b, List.mem_range.mpr hb,
                h1, h2, h3⟩
            rw [h] at hn; cases hn
  · intro hf
    rw [main hf]

/-- Witness for claim C10 at a concrete mixed-parity game: the reduction
reports false and leaves the state untouched. -/
theorem claim_C10_witness :
    (solveSingleParity 5 (initOink gPar)).1 = false ∧
    (solveSingleParity 5 (initOink gPar)).2 = initOink gPar := by
  have h := claim_C10 5 (initOink gPar)
  have hfalse : (solveSingleParity 5 (initOink gPar)).1 = false :=
    h.1.mpr (Or.inr ⟨0, by decide, 1, by decide, by decide, by decide,
      by decide⟩)
  exact ⟨hfalse, h.2 hfalse⟩

/-! ## The memo map only grows -/

theorem foldl_zstate_memo {α : Type} (f : ZState → α → ZState)
    (h : ∀ t a, (f t a).memo = t.memo) :
    ∀ (l : List α) (s : ZState), (l.foldl f s).memo = s.memo := by
  intro l
  induction l with
  | nil => intro s; rfl
  | cons a l ih =>
    intro s
    rw [List.foldl_cons, ih, h]

theorem foldl_pair_memo {α β : Type} (f : ZState × β → α → ZState × β)
    (h : ∀ q a, (f q a).1.memo = q.1.memo) :
    ∀ (l : List α) (p : ZState × β), (l.foldl f p).1.memo = p.1.memo := by
  intro l
  induction l with
  | nil => intro p; rfl
  | cons a l ih =>
    intro p
    rw [List.foldl_cons, ih, h]

theorem attrStep_memo (g : Game) (w cy v : Nat) (st : ZState) :
    (zsolver.attrStep g w cy v st).1.memo = st.memo := by
  unfold zsolver.attrStep
  apply foldl_pair_memo
  intro q a
  dsimp only
  split <;> rfl

theorem attrGo_memo (g : Game) (w cy : Nat) :
    ∀ (fuel : Nat) (q : List Nat) (st : ZState),
      (zsolver.attrGo g w cy fuel q st).memo = st.memo := by
  intro fuel
  induction fuel with
  | zero => intro q st; rfl
  | succ f ih =>
    intro q st
    cases q with
    | nil => rfl
    | cons v rest =>
      show (zsolver.attrGo g w cy f
        (rest ++ (zsolver.attrStep g w cy v st).2)
        (zsolver.attrStep g w cy v st).1).memo = st.memo
      rw [ih, attrStep_memo]

theorem attrInit_memo (g : Game) (w cn cy : Nat) (vs : List Nat)
    (st : ZState) : (zsolver.attrInit g w cn cy vs st).memo = st.memo := by
  unfold zsolver.attrInit
  apply foldl_zstate_memo
  intro t a
  dsimp only
  split
  · rfl
  · split <;> rfl

theorem attractor_memo (g : Game) (vs : List Nat) (w cn cy : Nat)
    (st : ZState) : (zsolver.attractor g vs w cn cy st).memo = st.memo := by
  unfold zsolver.attractor
  dsimp only
  rw [attrGo_memo, attrInit_memo]

theorem markLayer_memo (g : Game) (mp : Int) (ch : Nat) (vs : List Nat)
    (st : ZState) : (zsolver.markLayer g mp ch vs st).memo = st.memo := by
  unfold zsolver.markLayer
  apply foldl_zstate_memo
  intro t a
  dsimp only
  split <;> rfl

theorem partitionSub_memo (g : Game) (us co ch : Nat) (sub : List Nat)
    (st : ZState) :
    (zsolver.partitionSub g us co ch sub st).1.memo = st.memo := by
  unfold zsolver.partitionSub
  apply foldl_pair_memo
  intro q a
  dsimp only
  split <;> split <;> rfl

theorem fillTop_memo (g : Game) (us : Nat) (mp : Int) (ch : Nat)
    (vs : List Nat) (st : ZState) :
    (zsolver.fillTop g us mp ch vs st).memo = st.memo := by
  unfold zsolver.fillTop
  apply foldl_zstate_memo
  intro t a
  dsimp only
  split
  · split <;> rfl
  · rfl

theorem memoLookup_isSome_iff (m : Memo) (k : MemoKey) :
    (memoLookup m k).isSome = true ↔ ∃ e ∈ m, e.1 = k := by
  unfold memoLookup
  rcases hf : m.find? (fun e => decide (e.1 = k)) with _ | e
  · rw [hf]
    simp only [Option.map_none', Option.isSome_none]
    constructor
    · intro h; cases h
    · rintro ⟨e, he, hek⟩
      have := List.find?_eq_none.mp hf e he
      exact absurd (decide_eq_true hek) this
  · rw [hf]
    simp only [Option.map_some', Option.isSome_some]
    constructor
    · intro _
      have hp := List.find?_some hf
      exact ⟨e, List.mem_of_find?_eq_some hf, by simpa using hp⟩
    · intro _; trivial

theorem memoAppend_isSome (m : Memo) (k k' : MemoKey) (vals : List Int)
    (h : (memoLookup m k).isSome = true) :
    (memoLookup (memoAppend m k' vals) k).isSome = true := by
  rw [memoLookup_isSome_iff] at h ⊢
  obtain ⟨e, he, hek⟩ := h
  unfold memoAppend
  split
  · refine ⟨if e.1 = k' then (e.1, e.2 ++ vals) else e,
      List.mem_map_of_mem _ he, ?_⟩
    by_cases h' : e.1 = k'
    · rw [if_pos h']
      exact hek
    · rw [if_neg h']
      exact hek
  · exact ⟨e, List.mem_append_left _ he, hek⟩

/-- The recursive solver never discards memo entries: any key present
before a call is still present afterwards. -/
theorem run_memo_mono (g : Game) (flags : Nat) :
    ∀ (fuel : Nat) (vs : List Nat) (cb : Nat) (prec : Int × Int)
      (mode : Nat) (mprio : Int) (st : ZState),
      ∀ k, (memoLookup st.memo k).isSome = true →
        (memoLookup
          (zsolver.run g flags fuel vs cb prec mode mprio st).memo
          k).isSome = true := by
  intro fuel
  induction fuel with
  | zero =>
    intro vs cb prec mode mprio st k h
    exact h
  | succ fuel ih =>
    intro vs cb prec mode mprio st k h
    have hrun : zsolver.run g flags (fuel + 1) vs cb prec mode mprio st =
        (if flags &&& 2 ≠ 0 ∧ (memoLookup st.memo (prec, vs)).isSome then
          let s0 := zsolver.copyCached vs ((memoLookup st.memo (prec, vs)).getD []) st.strategy
          { st with strategy := s0 }
        else
          let st1 : ZState := { st with iters := st.iters + 1 }
          if vs = [] then st1
          else
            let maxprio : Int :=
              if mprio < 0 then
                vs.foldl (fun a v => max a ((g.prioOf v : Int))) mprio
              else mprio
            let us := (maxprio % 2).toNat
            let opponent := 1 - us
            if zsolver.getPrec prec us ≤ 0 then
              { st1 with strategy := zsolver.setAll g us (-1) 999 vs st1.strategy }
            else
              let cat_hiprio := st1.lastCategory
              let st2 : ZState := { st1 with lastCategory := st1.lastCategory + 1 }
              let st3 := zsolver.markLayer g maxprio cat_hiprio vs st2
              let st4 := zsolver.attractor g vs us cb cat_hiprio st3
              let subprecision :=
                if mode = 0 ∨ mode = 2 then
                  zsolver.setPrec prec opponent (zsolver.getPrec prec opponent - 1)
                else prec
              let subgame := vs.filter (fun v => decide (st4.vtype.getD v 0 = cb))
              let st5 :=
                if zsolver.getPrec subprecision opponent = 0 then
                  { st4 with strategy := zsolver.setAll g us 999 (-1) vs st4.strategy }
                else
                  zsolver.run g flags fuel subgame cb subprecision
                    (if mode = 3 then 3 else 0) (mprio - 1) st4
              let cat_opp := st5.lastCategory
              let st6 : ZState := { st5 with lastCategory := st5.lastCategory + 1 }
              let pr := zsolver.partitionSub g us cat_opp cat_hiprio subgame st6
              let st7 := pr.1
              if pr.2 then
                if mode = 0 then
                  zsolver.run g flags fuel vs cat_hiprio prec 1 mprio st7
                else
                  let st8 := zsolver.fillTop g us maxprio cat_hiprio vs st7
                  if flags &&& 2 ≠ 0 then
                    let m1 := memoAppend st8.memo (prec, vs) (vs.map (fun v => st8.strategy.getD v 0))
                    { st8 with memo := m1 }
                  else st8
              else
                let st9 := zsolver.attractor g vs opponent cat_hiprio cat_opp st7
                let subgame2 := vs.filter (fun v => decide (st9.vtype.getD v 0 = cat_hiprio))
                let st10 := zsolver.run g flags fuel subgame2 cat_hiprio prec
                  (if mode = 1 then 2 else mode) mprio st9
                if flags &&& 2 ≠ 0 then
                  let m2 := memoAppend st10.memo (prec, vs) (vs.map (fun v => st10.strategy.getD v 0))
                  { st10 with memo := m2 }
                else st10) := rfl
    rw [hrun]
    by_cases hm : flags &&& 2 ≠ 0 ∧ (memoLookup st.memo (prec, vs)).isSome = true
    · rw [if_pos hm]
      exact h
    · rw [if_neg hm]
      lift_lets
      extract_lets s1 mxp us opp ch s2 s3 s4 sp sg s5 co s6 pq s7 s8 mm1 s9 sg2 s10 mm2
      have h4 : (memoLookup s4.memo k).isSome = true := by
        show (memoLookup (zsolver.attractor g vs us cb ch s3).memo k).isSome = true
        rw [attractor_memo]
        show (memoLookup (zsolver.markLayer g mxp ch vs s2).memo k).isSome = true
        rw [markLayer_memo]
        exact h
      have h5 : (memoLookup s5.memo k).isSome = true := by
        show (memoLookup
          (if zsolver.getPrec sp opp = 0 then
            { s4 with strategy := zsolver.setAll g us 999 (-1) vs s4.strategy }
          else
            zsolver.run g flags fuel sg cb sp (if mode = 3 then 3 else 0)
              (mprio - 1) s4).memo k).isSome = true
        split
        · exact h4
        · exact ih _ _ _ _ _ _ _ h4
      have h7 : (memoLookup s7.memo k).isSome = true := by
        show (memoLookup (zsolver.partitionSub g us co ch sg s6).1.memo k).isSome = true
        rw [partitionSub_memo]
        exact h5
      by_cases hvs : vs = []
      · rw [if_pos hvs]
        exact h
      · rw [if_neg hvs]
        by_cases hgp : zsolver.getPrec prec us ≤ 0
        · rw [if_pos hgp]
          exact h
        · rw [if_neg hgp]
          by_cases hpr : pq.2 = true
          · rw [if_pos hpr]
            by_cases hm0 : mode = 0
            · rw [if_pos hm0]
              exact ih _ _ _ _ _ _ _ h7
            · rw [if_neg hm0]
              by_cases hmz : flags &&& 2 ≠ 0
              · rw [if_pos hmz]
                show (memoLookup (memoAppend s8.memo (prec, vs)
                  (List.map (fun v => s8.strategy.getD v 0) vs)) k).isSome = true
                apply memoAppend_isSome
                show (memoLookup (zsolver.fillTop g us mxp ch vs s7).memo k).isSome = true
                rw [fillTop_memo]
                exact h7
              · rw [if_neg hmz]
                show (memoLookup (zsolver.fillTop g us mxp ch vs s7).memo k).isSome = true
                rw [fillTop_memo]
                exact h7
          · rw [if_neg hpr]
            have h9 : (memoLookup s9.memo k).isSome = true := by
              show (memoLookup (zsolver.attractor g vs opp ch co s7).memo k).isSome = true
              rw [attractor_memo]
              exact h7
            have h10 : (memoLookup s10.memo k).isSome = true := by
              show (memoLookup (zsolver.run g flags fuel sg2 ch prec
                (if mode = 1 then 2 else mode) mprio s9).memo k).isSome = true
              exact ih _ _ _ _ _ _ _ h9
            by_cases hmz : flags &&& 2 ≠ 0
            · rw [if_pos hmz]
              show (memoLookup (memoAppend s10.memo (prec, vs)
                (List.map (fun v => s10.strategy.getD v 0) vs)) k).isSome = true
              apply memoAppend_isSome
              exact h10
            · rw [if_neg hmz]
              exact h10

/-- Pointwise reading of gameSolved. -/
theorem all_of_gameSolved (g : Game) (hlen : g.solved.length = g.n)
    (h : g.gameSolved = true) :
    ∀ i, i < g.n → g.solved.getD i false = true := by
  intro i hi
  unfold Game.gameSolved at h
  rw [List.all_eq_true] at h
  have hi' : i < g.solved.length := by omega
  rw [List.getD_eq_getElem?_getD, List.getElem?_eq_getElem hi']
  exact h _ (List.getElem_mem hi')

/-- The experimental solver leaves the driver with every vertex solved
and a 0/1 winner on each, provided the mask agrees with the solution and
nothing is solved yet. -/
theorem expRun_solves_all (flags zfuel : Nat) (memo : Memo) (lc : Nat)
    (ok : OinkState)
    (hlen1 : ok.game.solved.length = ok.game.n)
    (hlen2 : ok.game.winner.length = ok.game.n)
    (hlen3 : ok.disabled.length = ok.game.n)
    (howner : ∀ i, i < ok.game.n →
      ok.game.ownerOf i = 0 ∨ ok.game.ownerOf i = 1)
    (huns : ∀ i, i < ok.game.n → ok.game.solved.getD i false = false)
    (hsync : ∀ j, ok.disabled.getD j false = ok.game.solved.getD j false)
    (herr : ok.error = false) :
    (expRun flags zfuel memo lc ok).1.error = false ∧
    (expRun flags zfuel memo lc ok).1.game.n = ok.game.n ∧
    (expRun flags zfuel memo lc ok).1.game.inE = ok.game.inE ∧
    (expRun flags zfuel memo lc ok).1.game.solved.length = ok.game.n ∧
    (∀ i, i < ok.game.n →
      (expRun flags zfuel memo lc ok).1.game.solved.getD i false = true ∧
      ((expRun flags zfuel memo lc ok).1.game.winner.getD i 0 = 0 ∨
        (expRun flags zfuel memo lc ok).1.game.winner.getD i 0 = 1)) := by
  have hshape : (expRun flags zfuel memo lc ok).1 =
      (expVset ok.game.n).foldl
        (expAbsorb (expRun flags zfuel memo lc ok).2.strategy) ok := rfl
  obtain ⟨r1, r2, r3, r3b, r4, r5, r6, r7, r8, r9⟩ :=
    absorb_fold (expRun flags zfuel memo lc ok).2.strategy
      (expVset ok.game.n) ok (List.nodup_range _)
      (fun i hi => List.mem_range.mp hi)
      (fun i hi => huns i (List.mem_range.mp hi))
      (fun i hi => howner i (List.mem_range.mp hi))
      hlen1 hlen2 hlen3 hsync herr
  rw [hshape]
  exact ⟨r1, r2, r3b, r4,
    fun i hi => r9 i (List.mem_range.mpr hi)⟩

/-- One unfolding step of solveLoop on an unsolved game. -/
theorem solveLoop_step (flags zfuel ffuel fuel : Nat) (ok : OinkState)
    (memo : Memo) (lc : Nat) (h : ok.game.gameSolved = false) :
    solveLoop flags zfuel ffuel (fuel + 1) (ok, memo, lc) =
      solveLoop flags zfuel ffuel fuel
        (Oink.flush ffuel (expRun flags zfuel memo lc
            { ok with disabled := ok.game.solved }).1,
          (expRun flags zfuel memo lc
            { ok with disabled := ok.game.solved }).2.memo,
          (expRun flags zfuel memo lc
            { ok with disabled := ok.game.solved }).2.lastCategory) := by
  simp only [solveLoop]
  rw [h]
  rfl

/-- Claim C1: for every well-formed input game in which every vertex has
an outgoing edge and nothing is solved yet, when the driver loop returns
(any positive fuel suffices, since the experimental solver reports a
verdict for every unsolved vertex in its first invocation), every vertex
is solved with winner 0 or 1, no LOGIC_ERROR occurred, and the sets of
vertices won by player 0 and player 1 are disjoint and cover all
vertices. -/
theorem claim_C1 (g : Game) (flags zfuel ffuel lfuel : Nat) (memo : Memo)
    (lc : Nat) (hwf : g.WF)
    (htotal : ∀ v, v < g.n → g.outOf v ≠ [])
    (hinput : ∀ v, v < g.n → g.solved.getD v false = false)
    (hfuel : 1 ≤ lfuel) :
    (solveLoop flags zfuel ffuel lfuel (initOink g, memo, lc)).1.error
      = false ∧
    (∀ v, v < g.n → (solveLoop flags zfuel ffuel lfuel
      (initOink g, memo, lc)).1.game.solved.getD v false = true) ∧
    (∀ v, v < g.n →
      (solveLoop flags zfuel ffuel lfuel
        (initOink g, memo, lc)).1.game.winner.getD v 0 = 0 ∨
      (solveLoop flags zfuel ffuel lfuel
        (initOink g, memo, lc)).1.game.winner.getD v 0 = 1) ∧
    Disjoint
      ((Finset.range g.n).filter (fun v => (solveLoop flags zfuel ffuel
        lfuel (initOink g, memo, lc)).1.game.winner.getD v 0 = 0))
      ((Finset.range g.n).filter (fun v => (solveLoop flags zfuel ffuel
        lfuel (initOink g, memo, lc)).1.game.winner.getD v 0 = 1)) ∧
    ((Finset.range g.n).filter (fun v => (solveLoop flags zfuel ffuel
        lfuel (initOink g, memo, lc)).1.game.winner.getD v 0 = 0)) ∪
      ((Finset.range g.n).filter (fun v => (solveLoop flags zfuel ffuel
        lfuel (initOink g, memo, lc)).1.game.winner.getD v 0 = 1))
      = Finset.range g.n := by
  obtain ⟨hw1, hw2, hw3, hw4, hw5, hw6, hw7, hw8, hw9, hw10⟩ := hwf
  obtain ⟨lfuel', rfl⟩ : ∃ k, lfuel = k + 1 :=
    ⟨lfuel - 1, by omega⟩
  have hmain : (∀ v, v < g.n →
      (solveLoop flags zfuel ffuel (lfuel' + 1)
        (initOink g, memo, lc)).1.game.solved.getD v false = true ∧
      ((solveLoop flags zfuel ffuel (lfuel' + 1)
        (initOink g, memo, lc)).1.game.winner.getD v 0 = 0 ∨
       (solveLoop flags zfuel ffuel (lfuel' + 1)
        (initOink g, memo, lc)).1.game.winner.getD v 0 = 1)) ∧
      (solveLoop flags zfuel ffuel (lfuel' + 1)
        (initOink g, memo, lc)).1.error = false := by
    by_cases hgs : g.gameSolved
    · have hzero : g.n = 0 := by
        by_contra hne
        have h0 : (0 : Nat) < g.n := by omega
        have := all_of_gameSolved g hw5 hgs 0 h0
        rw [hinput 0 h0] at this
        cases this
      have hret : solveLoop flags zfuel ffuel (lfuel' + 1)
          (initOink g, memo, lc) = (initOink g, memo, lc) :=
        solveLoop_of_solved _ _ _ _ _ hgs
      rw [hret]
      exact ⟨fun v hv => absurd hv (by omega), rfl⟩
    · have hgs' : (initOink g).game.gameSolved = false := by
        show g.gameSolved = false
        simpa using hgs
      rw [solveLoop_step flags zfuel ffuel lfuel' (initOink g) memo lc hgs']
      set ok1 : OinkState :=
        { initOink g with disabled := (initOink g).game.solved } with hok1
      have hok1g : ok1.game = g := rfl
      obtain ⟨e1, e2, e3, e4, e5⟩ :=
        expRun_solves_all flags zfuel memo lc ok1 hw5 hw6
          (by show g.solved.length = g.n; exact hw5)
          (fun i hi => hw8 i hi) (fun i hi => hinput i hi)
          (fun j => rfl) rfl
      set p1 : OinkState := (expRun flags zfuel memo lc ok1).1 with hp1
      have hallp : ∀ i, i < p1.game.n →
          p1.game.solved.getD i false = true := by
        intro i hi
        exact (e5 i (by rw [← e2]; exact hi)).1
      obtain ⟨f1, f2, f3⟩ := flush_of_all_solved ffuel p1 hallp
        (by rw [e3, e2]; exact hw4)
        (by
          intro u hu w hwmem
          rw [e2] at hu
          have hio : p1.game.inOf u = g.inOf u := by
            unfold Game.inOf
            rw [e3]
            rfl
          rw [hio] at hwmem
          rw [e2]
          exact hw10 u hu w hwmem)
      set q1 : OinkState := Oink.flush ffuel p1 with hq1
      have hsolvedq : q1.game.gameSolved = true := by
        rw [hq1, f1]
        exact gameSolved_of_all p1.game (by rw [e4, e2]) hallp
      have hret : solveLoop flags zfuel ffuel lfuel'
          (q1, (expRun flags zfuel memo lc ok1).2.memo,
            (expRun flags zfuel memo lc ok1).2.lastCategory)
          = (q1, (expRun flags zfuel memo lc ok1).2.memo,
            (expRun flags zfuel memo lc ok1).2.lastCategory) :=
        solveLoop_of_solved _ _ _ _ _ hsolvedq
      rw [hret]
      constructor
      · intro v hv
        have := e5 v hv
        rw [hq1, f1]
        exact this
      · rw [hq1, f3]
        exact e1
  refine ⟨hmain.2, fun v hv => (hmain.1 v hv).1,
    fun v hv => (hmain.1 v hv).2, ?_, ?_⟩
  · rw [Finset.disjoint_left]
    intro v hv0 hv1
    have h0 := (Finset.mem_filter.mp hv0).2
    have h1 := (Finset.mem_filter.mp hv1).2
    rw [h0] at h1
    cases h1
  · apply Finset.ext
    intro v
    constructor
    · intro hv
      rcases Finset.mem_union.mp hv with h | h
      · exact (Finset.mem_filter.mp h).1
      · exact (Finset.mem_filter.mp h).1
    · intro hv
      have hvn := Finset.mem_range.mp hv
      rcases (hmain.1 v hvn).2 with h | h
      · exact Finset.mem_union_left _ (Finset.mem_filter.mpr ⟨hv, h⟩)
      · exact Finset.mem_union_right _ (Finset.mem_filter.mpr ⟨hv, h⟩)

/-- Witness for claim C1 at the concrete two-vertex game gPar. -/
theorem claim_C1_witness :
    gPar.WF ∧ (∀ v, v < gPar.n → gPar.outOf v ≠ []) ∧
    (∀ v, v < gPar.n → gPar.solved.getD v false = false) ∧
    (∀ v, v < gPar.n → (solveLoop 4 20 10 1
      (initOink gPar, [], 0)).1.game.solved.getD v false = true) := by
  have h := claim_C1 gPar 4 20 10 1 [] 0 (by decide)
    (by decide) (by decide) (by omega)
  exact ⟨by decide, by decide, by decide, h.2.1⟩

/-- Claim C2 (code bug): on the single-vertex game with owner 0,
priority 1 and a self-loop, the full driver pipeline with the
bounded-precision solver (flags of `epq`) terminates with vertex 0
solved, winner 0 equal to its owner, and the sentinel 999 stored as its
final strategy even though 999 is not a member of out[0]. -/
theorem claim_C2_eval :
    (solveLoop 4 20 10 2 (initOink gOne, [], 0)).1.game.solved = [true] ∧
    (solveLoop 4 20 10 2 (initOink gOne, [], 0)).1.game.winner = [0] ∧
    gOne.ownerOf 0 = 0 ∧
    (solveLoop 4 20 10 2 (initOink gOne, [], 0)).1.game.strategy = [999] ∧
    (∀ w ∈ gOne.outOf 0, Int.ofNat w ≠ 999) := by
  refine ⟨by rfl, by rfl, by rfl, by rfl, ?_⟩
  decide

/-- Claim C4 (code bug): with mode 3 (classical Zielonka, as used by
solver `ez`) the result of zsolver::run is not independent of the
precision pair.  For the single-vertex game the driver computes initial
precision 0 (`precOf 1 = 0`); running mode 3 with precision (0,0) takes
the `precision[us] <= 0` concede branch and outputs the sentinel 999
(hence winner = owner = 0 in the driver), while precision (1,1) outputs
-1 (winner 1, the correct classical-Zielonka answer). -/
theorem claim_C4_eval :
    precOf 1 = 0 ∧
    (zsolver.run gOne 5 20 [0] 0 (0, 0) 3 (-1)
      { vtype := [0], strategy := [0], degs := [-1], lastCategory := 1,
        memo := [], iters := 0 }).strategy = [999] ∧
    (zsolver.run gOne 5 20 [0] 0 (1, 1) 3 (-1)
      { vtype := [0], strategy := [0], degs := [-1], lastCategory := 1,
        memo := [], iters := 0 }).strategy = [-1] ∧
    (solveLoop 5 20 10 2 (initOink gOne, [], 0)).1.game.winner = [0] := by
  exact ⟨rfl, rfl, rfl, rfl⟩

/-- Claim C9 (code bug): on the game `gTc` the trivial-cycle SCC search
pushes a vertex on the search stack although it is disabled (vertex 0,
solved and disabled by the flush of the first accepted SCC in the same
call), because the skip test in the edge loop reads `disabled[i]` for
the search root `i` instead of `disabled[to]`. -/
theorem claim_C9_eval :
    (solveTrivialCycles 10 10 50 (initOink gTc)).pushedDisabled = true ∧
    (initOink gTc).disabled = [false, false, false] := by
  exact ⟨rfl, rfl⟩

/-- `Oink::solve` never clears the sticky error flag. -/
theorem solve_error_mono (ok : OinkState) (node win : Nat) (strat : Int)
    (h : ok.error = true) : (Oink.solve ok node win strat).error = true := by
  unfold Oink.solve
  split
  · rfl
  · exact h

/-- The verdict-absorbing step never clears the sticky error flag. -/
theorem expAbsorb_error_mono (strat : List Int) (ok : OinkState) (i : Nat)
    (h : ok.error = true) : (expAbsorb strat ok i).error = true := by
  unfold expAbsorb
  split
  · exact h
  · split
    · exact solve_error_mono _ _ _ _ h
    · exact solve_error_mono _ _ _ _ h

/-- The verdict-absorbing fold never clears the sticky error flag. -/
theorem foldl_expAbsorb_error_mono (strat : List Int) :
    ∀ (l : List Nat) (ok : OinkState), ok.error = true →
      (l.foldl (expAbsorb strat) ok).error = true := by
  intro l
  induction l with
  | nil => intro ok h; exact h
  | cons j l ihl =>
    intro ok h
    rw [List.foldl_cons]
    exact ihl _ (expAbsorb_error_mono _ _ _ h)

/-- Absorbing the verdict of a masked (disabled) but unsolved vertex
trips the LOGIC_ERROR check in `Oink::solve`. -/
theorem expAbsorb_masked (strat : List Int) (ok : OinkState) (i : Nat)
    (hs : ok.game.solved.getD i false = false)
    (hd : ok.disabled.getD i false = true) :
    (expAbsorb strat ok i).error = true := by
  unfold expAbsorb
  rw [hs]
  rw [if_neg (by decide : ¬((false : Bool) = true))]
  split
  · unfold Oink.solve
    rw [hs, hd]
    rw [if_pos (by decide : (false || true) = true)]
  · unfold Oink.solve
    rw [hs, hd]
    rw [if_pos (by decide : (false || true) = true)]

/-- The verdict-absorbing step at a vertex `j` other than `i` does not
change whether `i` is solved or disabled. -/
theorem expAbsorb_preserves_ne (strat : List Int) (ok : OinkState)
    {i j : Nat} (hij : j ≠ i) :
    (expAbsorb strat ok j).game.solved.getD i false =
      ok.game.solved.getD i false ∧
    (expAbsorb strat ok j).disabled.getD i false =
      ok.disabled.getD i false := by
  unfold expAbsorb Oink.solve
  split
  · exact ⟨rfl, rfl⟩
  · split
    · split
      · exact ⟨rfl, rfl⟩
      · exact ⟨getD_set_ne _ _ _ hij, getD_set_ne _ _ _ hij⟩
    · split
      · exact ⟨rfl, rfl⟩
      · exact ⟨getD_set_ne _ _ _ hij, getD_set_ne _ _ _ hij⟩

/-- If the fold over the full vertex list meets a masked but unsolved
vertex, the error flag comes out set. -/
theorem foldl_expAbsorb_masked (strat : List Int) :
    ∀ (l : List Nat) (ok : OinkState) (i : Nat), i ∈ l →
      ok.game.solved.getD i false = false →
      ok.disabled.getD i false = true →
      (l.foldl (expAbsorb strat) ok).error = true := by
  intro l
  induction l with
  | nil => intro ok i hi; cases hi
  | cons j l ihl =>
    intro ok i hi hs hd
    rw [List.foldl_cons]
    by_cases hij : j = i
    · subst hij
      exact foldl_expAbsorb_error_mono _ _ _ (expAbsorb_masked _ _ _ hs hd)
    · rcases List.mem_cons.mp hi with he | hmem
      · exact absurd he.symm hij
      · obtain ⟨hps, hpd⟩ := expAbsorb_preserves_ne strat ok hij
        exact ihl _ _ hmem (hps.trans hs) (hpd.trans hd)

/-- Claim C5 counterexample: with the bottom-SCC narrowing state
`stMask` (vertex 0 disabled but unsolved), the experimental solver still
operates on vertex 0 — its solver-local strategy for the masked vertex 0
is overwritten (from the initial 0 to -1) — and it passes the masked
vertex 0 to Oink::solve, which hits the LOGIC_ERROR check. -/
theorem claim_C5_counterexample :
    stMask.disabled.getD 0 false = true ∧
    stMask.game.solved.getD 0 false = false ∧
    stMask.error = false ∧
    (expRun 4 20 [] 0 stMask).2.strategy.getD 0 0 ≠ 0 ∧
    (expRun 4 20 [] 0 stMask).1.error = true := by
  exact ⟨rfl, rfl, rfl, by decide, rfl⟩

/-- Claim C6 counterexample: solving game `gTwo` with the memoizing
solver (flags of `epqm`) leaves a cache entry; a second top-level
invocation on the same game, starting from the cache the first one left
behind (as the process-global `memo` does), returns with iteration
counter 0 — its very first lookup hit the entry recorded by the earlier
top-level solve — while the first invocation needed 3 iterations. -/
theorem claim_C6_counterexample :
    (memoLookup (expRun 6 20 [] 0 (initOink gTwo)).2.memo
      ((1, 1), [0, 1])).isSome = true ∧
    (expRun 6 20 [] 0 (initOink gTwo)).2.iters = 3 ∧
    (expRun 6 20
      (expRun 6 20 [] 0 (initOink gTwo)).2.memo
      (expRun 6 20 [] 0 (initOink gTwo)).2.lastCategory
      (initOink gTwo)).2.iters = 0 ∧
    (expRun 6 20
      (expRun 6 20 [] 0 (initOink gTwo)).2.memo
      (expRun 6 20 [] 0 (initOink gTwo)).2.lastCategory
      (initOink gTwo)).1.game.solved = [true, true] := by
  exact ⟨rfl, rfl, rfl, rfl⟩

/-- Claim C5 (amended): the experimental solver ignores the disabled
mask entirely.  `ExperimentalSolver::run` always operates on the full
vertex range `[0, n)` and reports every vertex that is not yet marked
solved to `Oink::solve`; consequently, whenever some vertex is masked
(`disabled`) but unsolved — exactly what the driver's bottom-SCC
narrowing produces — the masked vertex is passed to `Oink::solve` and
the run ends in the LOGIC_ERROR state. -/
theorem claim_C5_amended (flags zfuel : Nat) (memo : Memo) (lc : Nat)
    (ok : OinkState) (i : Nat)
    (hi : i < ok.game.n)
    (hs : ok.game.solved.getD i false = false)
    (hd : ok.disabled.getD i false = true) :
    (expRun flags zfuel memo lc ok).1.error = true := by
  unfold expRun
  dsimp only
  apply foldl_expAbsorb_masked _ _ _ i _ hs hd
  exact List.mem_range.mpr hi

theorem claim_C5_amended_witness :
    0 < stMask.game.n ∧
    stMask.game.solved.getD 0 false = false ∧
    stMask.disabled.getD 0 false = true ∧
    (expRun 4 20 [] 0 stMask).1.error = true :=
  ⟨by decide, rfl, rfl,
    claim_C5_amended 4 20 [] 0 stMask 0 (by decide) rfl rfl⟩

/-- Claim C6 (amended): the memoization cache does NOT live only for
one top-level solver invocation.  It is a process-global `std::map`
that is never cleared: a solver invocation only ever adds entries, so
every key present in the cache when an invocation starts — in
particular every entry recorded by an earlier top-level solve — is
still present when it returns, and a later invocation's lookups can hit
entries recorded by earlier ones. -/
theorem claim_C6_amended (flags zfuel : Nat) (memo : Memo) (lc : Nat)
    (ok : OinkState) (k : MemoKey)
    (h : (memoLookup memo k).isSome = true) :
    (memoLookup (expRun flags zfuel memo lc ok).2.memo k).isSome = true := by
  unfold expRun
  dsimp only
  exact run_memo_mono _ _ _ _ _ _ _ _ _ _ h

theorem claim_C6_amended_witness :
    (memoLookup [(((1, 1), [0]), [7])] ((1, 1), [0])).isSome = true ∧
    (memoLookup (expRun 6 20 [(((1, 1), [0]), [7])] 0 (initOink gTwo)).2.memo
      ((1, 1), [0])).isSome = true :=
  ⟨rfl, claim_C6_amended 6 20 [(((1, 1), [0]), [7])] 0 (initOink gTwo)
    ((1, 1), [0]) rfl⟩

theorem filter_length_drop {l : List Nat} {p p' : Nat → Bool} {w : Nat}
    (hnd : l.Nodup) (hw : w ∈ l) (hp : p w = true) (hp' : p' w = false)
    (hagree : ∀ x ∈ l, x ≠ w → p x = p' x) :
    (l.filter p).length = (l.filter p').length + 1 := by
  induction l with
  | nil => cases hw
  | cons a l ih =>
    rcases List.nodup_cons.mp hnd with ⟨hal, hl⟩
    rcases List.mem_cons.mp hw with ha | hm
    · subst ha
      have hcong : l.filter p = l.filter p' := by
        apply List.filter_congr
        intro x hx
        exact hagree x (List.mem_cons_of_mem _ hx) (fun hxa => hal (hxa ▸ hx))
      simp only [List.filter_cons, hp, hp', if_pos, if_neg]
      simp [hcong]
    · have haw : a ≠ w := fun h => hal (h ▸ hm)
      have := ih hl hm (fun x hx hxw => hagree x (List.mem_cons_of_mem _ hx) hxw)
      simp only [List.filter_cons]
      rw [hagree a (List.mem_cons_self a l) haw]
      by_cases hpa : p' a = true
      · simp only [hpa, if_pos]
        simp [this]
      · simp only [Bool.not_eq_true] at hpa
        simp only [hpa]
        simp [this]

theorem filter_length_congr {l : List Nat} {p p' : Nat → Bool}
    (hagree : ∀ x ∈ l, p x = p' x) :
    (l.filter p).length = (l.filter p').length := by
  rw [List.filter_congr hagree]

theorem filter_length_partition (l : List Nat) (p : Nat → Bool) :
    (l.filter p).length + (l.filter (fun x => !p x)).length = l.length := by
  induction l with
  | nil => rfl
  | cons a l ih =>
    simp only [List.filter_cons]
    by_cases hpa : p a = true
    · simp [hpa, ← ih]
      omega
    · simp only [Bool.not_eq_true] at hpa
      simp [hpa, ← ih]
      omega

theorem foldl_count_int (p : Nat → Prop) [DecidablePred p] :
    ∀ (l : List Nat) (c : Int),
      l.foldl (fun d w => if p w then d + 1 else d) c =
        c + ((l.filter (fun w => decide (p w))).length : Int) := by
  intro l
  induction l with
  | nil => intro c; simp
  | cons a l ih =>
    intro c
    rw [List.foldl_cons, ih, List.filter_cons]
    by_cases hpa : p a
    · simp [hpa]
      omega
    · simp [hpa]

theorem attrInit_spec (g : Game) (whose cat_no cat_yes : Nat) :
    ∀ (l : List Nat) (st : ZState),
      (∀ v ∈ l, v < st.degs.length) →
      (zsolver.attrInit g whose cat_no cat_yes l st).vtype = st.vtype ∧
      (zsolver.attrInit g whose cat_no cat_yes l st).strategy = st.strategy ∧
      (zsolver.attrInit g whose cat_no cat_yes l st).degs.length =
        st.degs.length ∧
      ∀ j, (zsolver.attrInit g whose cat_no cat_yes l st).degs.getD j 0 =
        if j ∈ l ∧ st.vtype.getD j 0 ≠ cat_yes then
          initDeg g whose cat_no cat_yes st j
        else st.degs.getD j 0 := by
  intro l
  induction l with
  | nil =>
    intro st _
    refine ⟨rfl, rfl, rfl, ?_⟩
    intro j
    simp [zsolver.attrInit]
  | cons v l ih =>
    intro st hlen
    have hstep : zsolver.attrInit g whose cat_no cat_yes (v :: l) st =
        zsolver.attrInit g whose cat_no cat_yes l
          (if st.vtype.getD v 0 = cat_yes then st
           else if g.ownerOf v = whose then
             { st with degs := st.degs.set v 1 }
           else
             { st with degs := st.degs.set v ((g.outOf v).foldl (fun d w => if st.vtype.getD w 0 = cat_no ∨ st.vtype.getD w 0 = cat_yes then d + 1 else d) 0) }) := by
      rw [zsolver.attrInit, List.foldl_cons]
      rw [zsolver.attrInit]
    set s1 := (if st.vtype.getD v 0 = cat_yes then st
           else if g.ownerOf v = whose then
             { st with degs := st.degs.set v 1 }
           else
             { st with degs := st.degs.set v ((g.outOf v).foldl (fun d w => if st.vtype.getD w 0 = cat_no ∨ st.vtype.getD w 0 = cat_yes then d + 1 else d) 0) }) with hs1
    have hs1v : s1.vtype = st.vtype := by
      rw [hs1]
      split
      · rfl
      · split <;> rfl
    have hs1s : s1.strategy = st.strategy := by
      rw [hs1]
      split
      · rfl
      · split <;> rfl
    have hs1dl : s1.degs.length = st.degs.length := by
      rw [hs1]
      split
      · rfl
      · split <;> simp
    have hs1d : ∀ j, s1.degs.getD j 0 =
        if j = v ∧ st.vtype.getD j 0 ≠ cat_yes then
          initDeg g whose cat_no cat_yes st j
        else st.degs.getD j 0 := by
      intro j
      by_cases hjv : j = v
      · subst hjv
        by_cases hmk : st.vtype.getD j 0 = cat_yes
        · rw [hs1, if_pos hmk, if_neg (fun h => h.2 hmk)]
        · rw [if_pos ⟨rfl, hmk⟩]
          have hjlen : j < st.degs.length := hlen j (List.mem_cons_self j l)
          unfold initDeg
          rw [hs1, if_neg hmk]
          by_cases how : g.ownerOf j = whose
          · rw [if_pos how, if_pos how]
            exact getD_set_self _ _ _ _ hjlen
          · rw [if_neg how, if_neg how]
            dsimp only
            rw [getD_set_self _ _ _ _ hjlen, foldl_count_int]
            simp
      · rw [if_neg (fun h => hjv h.1)]
        rw [hs1]
        split
        · rfl
        · split
          · exact getD_set_ne _ _ _ (fun h => hjv h.symm)
          · exact getD_set_ne _ _ _ (fun h => hjv h.symm)
    obtain ⟨hv, hsg, hdl, hd⟩ := ih s1 (by
      intro u hu
      rw [hs1dl]
      exact hlen u (List.mem_cons_of_mem _ hu))
    rw [hstep]
    refine ⟨hv.trans hs1v, hsg.trans hs1s, hdl.trans hs1dl, ?_⟩
    intro j
    rw [hd j, hs1d j]
    rw [hs1v]
    by_cases hjl : j ∈ l ∧ st.vtype.getD j 0 ≠ cat_yes
    · rw [if_pos hjl, if_pos ⟨List.mem_cons_of_mem _ hjl.1, hjl.2⟩]
      unfold initDeg
      rw [hs1v]
    · rw [if_neg hjl]
      by_cases hjv : j = v ∧ st.vtype.getD j 0 ≠ cat_yes
      · rw [if_pos hjv, if_pos ⟨hjv.1 ▸ List.mem_cons_self v l, hjv.2⟩]
      · rw [if_neg hjv, if_neg (by
          rintro ⟨hmem, hmk⟩
          rcases List.mem_cons.mp hmem with h | h
          · exact hjv ⟨h, hmk⟩
          · exact hjl ⟨h, hmk⟩)]

theorem attrCount_eq_of (g : Game) (vs P P' : List Nat) (cy : Nat)
    (st st' : ZState) (v : Nat)
    (h : ∀ x ∈ g.outOf v,
      (x ∈ vs ∧ (st.vtype.getD x 0 ≠ cy ∨ x ∈ P)) ↔
      (x ∈ vs ∧ (st'.vtype.getD x 0 ≠ cy ∨ x ∈ P'))) :
    attrCount g vs P cy st v = attrCount g vs P' cy st' v := by
  unfold attrCount
  exact filter_length_congr (fun x hx => decide_eq_decide.mpr (h x hx))

theorem attrCount_drop (g : Game) (vs : List Nat) (cy : Nat) (st : ZState)
    (P P' : List Nat) (w v : Nat)
    (hnd : (g.outOf v).Nodup) (hw : w ∈ g.outOf v)
    (hpw : w ∈ vs ∧ (st.vtype.getD w 0 ≠ cy ∨ w ∈ P))
    (hpw' : ¬(w ∈ vs ∧ (st.vtype.getD w 0 ≠ cy ∨ w ∈ P')))
    (hagree : ∀ x ∈ g.outOf v, x ≠ w → (x ∈ P ↔ x ∈ P')) :
    attrCount g vs P cy st v = attrCount g vs P' cy st v + 1 := by
  unfold attrCount
  apply filter_length_drop hnd hw (decide_eq_true hpw) (decide_eq_false hpw')
  intro x hx hxw
  apply decide_eq_decide.mpr
  constructor
  · rintro ⟨h1, h2⟩
    refine ⟨h1, ?_⟩
    rcases h2 with h2 | h2
    · exact Or.inl h2
    · exact Or.inr ((hagree x hx hxw).mp h2)
  · rintro ⟨h1, h2⟩
    refine ⟨h1, ?_⟩
    rcases h2 with h2 | h2
    · exact Or.inl h2
    · exact Or.inr ((hagree x hx hxw).mpr h2)

theorem mid_of_inv (g : Game) (vs : List Nat) (whose cat_no cat_yes : Nat)
    (st0 : ZState) (hpre : AttrPre g vs cat_no cat_yes st0)
    (w : Nat) (P' : List Nat) (st : ZState)
    (h : AttrInv g vs whose cat_yes st0 (w :: P') st) :
    AttrMid g vs whose cat_yes st0 w (g.inOf w) P' st := by
  obtain ⟨hwlt, hwvs, hwmk⟩ := h.pendMem w (List.mem_cons_self w P')
  have hwnp : w ∉ P' := (List.nodup_cons.mp h.pendNodup).1
  refine ⟨h.lenV, h.lenS, h.lenD, hwlt, hwvs, hwmk, hwnp, h.outside,
    h.evolve, h.sound, h.strat, ?_, (List.nodup_cons.mp h.pendNodup).2,
    h.degsOut, h.degsMk, ?_, ?_⟩
  · intro v hv
    exact h.pendMem v (List.mem_cons_of_mem _ hv)
  · intro v hvlt hvvs hvmk hvown
    obtain ⟨hd1, hd2⟩ := h.degsOwn v hvlt hvvs hvmk hvown
    refine ⟨hd1, ?_⟩
    intro u hu huvs humk
    rcases List.mem_cons.mp (hd2 u hu huvs humk) with he | hm
    · subst he
      exact Or.inr ⟨rfl, (hpre.dual v hvlt u hwlt).mp hu⟩
    · exact Or.inl hm
  · intro v hvlt hvvs hvmk hvown
    obtain ⟨hd1, hd2⟩ := h.degsOpp v hvlt hvvs hvmk hvown
    refine ⟨?_, hd2⟩
    by_cases hwout : w ∈ g.outOf v
    · have hvin : v ∈ g.inOf w := (hpre.dual v hvlt w hwlt).mp hwout
      rw [if_pos hvin]
      have := attrCount_drop g vs cat_yes st (w :: P') P' w v
        (hpre.outNodup v hvlt) hwout
        ⟨hwvs, Or.inr (List.mem_cons_self w P')⟩
        (by
          rintro ⟨_, hc⟩
          rcases hc with hc | hc
          · exact hc hwmk
          · exact hwnp hc)
        (by
          intro x _ hxw
          simp [List.mem_cons, hxw])
      rw [hd1, this]
      push_cast
      ring
    · have hvin : v ∉ g.inOf w := fun hin =>
        hwout ((hpre.dual v hvlt w hwlt).mpr hin)
      rw [if_neg hvin]
      rw [hd1]
      rw [attrCount_eq_of g vs (w :: P') P' cat_yes st st v (by
        intro x hx
        have hxw : x ≠ w := fun he => hwout (he ▸ hx)
        simp [List.mem_cons, hxw])]
      simp

theorem inv_of_mid (g : Game) (vs : List Nat) (whose cat_yes : Nat)
    (st0 : ZState) (w : Nat) (P : List Nat) (st : ZState)
    (h : AttrMid g vs whose cat_yes st0 w [] P st) :
    AttrInv g vs whose cat_yes st0 P st := by
  refine ⟨h.lenV, h.lenS, h.lenD, h.outside, h.evolve, h.sound, h.strat,
    h.pendMem, h.pendNodup, h.degsOut, h.degsMk, ?_, ?_⟩
  · intro v hvlt hvvs hvmk hvown
    obtain ⟨hd1, hd2⟩ := h.degsOwn v hvlt hvvs hvmk hvown
    refine ⟨hd1, ?_⟩
    intro u hu huvs humk
    rcases hd2 u hu huvs humk with hm | ⟨_, hin⟩
    · exact hm
    · cases hin
  · intro v hvlt hvvs hvmk hvown
    obtain ⟨hd1, hd2⟩ := h.degsOpp v hvlt hvvs hvmk hvown
    refine ⟨?_, hd2⟩
    rw [hd1]
    simp

theorem attrStep_eq_foldF (g : Game) (whose cat_yes w : Nat) (st : ZState) :
    zsolver.attrStep g whose cat_yes w st =
      (g.inOf w).foldl (attrStepF g whose cat_yes w) (st, []) := rfl

theorem mid_step_nomark (g : Game) (vs : List Nat)
    (whose cat_no cat_yes : Nat) (st0 : ZState)
    (hpre : AttrPre g vs cat_no cat_yes st0) (w u : Nat) (R' : List Nat)
    (P : List Nat) (st : ZState)
    (h : AttrMid g vs whose cat_yes st0 w (u :: R') P st)
    (hu_lt : u < g.n) (hu_nR : u ∉ R')
    (hne : st.degs.getD u 0 - 1 ≠ 0) :
    AttrMid g vs whose cat_yes st0 w R' P
      { st with degs := st.degs.set u (st.degs.getD u 0 - 1) } := by
  refine ⟨h.lenV, h.lenS, ?_, h.wLt, h.wVs, h.wMk, h.wNotP, h.outside,
    h.evolve, h.sound, h.strat, h.pendMem, h.pendNodup, ?_, ?_, ?_, ?_⟩
  · dsimp only
    rw [List.length_set]
    exact h.lenD
  · -- degsOut
    intro v hvlt hvvs
    dsimp only
    by_cases hvu : v = u
    · subst hvu
      rw [getD_set_self _ _ _ _ (h.lenD ▸ hvlt)]
      have := h.degsOut v hvlt hvvs
      omega
    · rw [getD_set_ne _ _ _ (fun he => hvu he.symm)]
      exact h.degsOut v hvlt hvvs
  · -- degsMk
    intro v hvlt hvvs hvmk
    dsimp only at hvmk ⊢
    by_cases hvu : v = u
    · subst hvu
      rw [getD_set_self _ _ _ _ (h.lenD ▸ hvlt)]
      have := h.degsMk v hvlt hvvs hvmk
      omega
    · rw [getD_set_ne _ _ _ (fun he => hvu he.symm)]
      exact h.degsMk v hvlt hvvs hvmk
  · -- degsOwn
    intro v hvlt hvvs hvmk hvown
    dsimp only at hvmk ⊢
    obtain ⟨hd1, hd2⟩ := h.degsOwn v hvlt hvvs hvmk hvown
    by_cases hvu : v = u
    · subst hvu
      exact absurd (by rw [hd1]; norm_num : st.degs.getD v 0 - 1 = 0) hne
    refine ⟨?_, ?_⟩
    · rw [getD_set_ne _ _ _ (fun he => hvu he.symm)]
      exact hd1
    · intro x hx hxvs hxmk
      rcases hd2 x hx hxvs hxmk with hm | ⟨hxw, hvR⟩
      · exact Or.inl hm
      · refine Or.inr ⟨hxw, ?_⟩
        rcases List.mem_cons.mp hvR with he | hm2
        · exact absurd he hvu
        · exact hm2
  · -- degsOpp
    intro v hvlt hvvs hvmk hvown
    dsimp only at hvmk ⊢
    obtain ⟨hd1, hd2⟩ := h.degsOpp v hvlt hvvs hvmk hvown
    have hcnt_eq : attrCount g vs P cat_yes
        { st with degs := st.degs.set u (st.degs.getD u 0 - 1) } v =
        attrCount g vs P cat_yes st v := rfl
    by_cases hvu : v = u
    · subst hvu
      rw [if_pos (List.mem_cons_self v R')] at hd1
      refine ⟨?_, ?_⟩
      · rw [getD_set_self _ _ _ _ (h.lenD ▸ hvlt), hcnt_eq,
          if_neg hu_nR, hd1]
        ring
      · intro h0
        rw [getD_set_self _ _ _ _ (h.lenD ▸ hvlt), hd1] at h0
        exfalso
        omega
    · refine ⟨?_, ?_⟩
      · rw [getD_set_ne _ _ _ (fun he => hvu he.symm), hcnt_eq, hd1]
        have hmem : (v ∈ u :: R') ↔ (v ∈ R') := by
          simp [List.mem_cons, hvu]
        by_cases hvR : v ∈ R'
        · rw [if_pos hvR, if_pos (hmem.mpr hvR)]
        · rw [if_neg hvR, if_neg (fun hc => hvR (hmem.mp hc))]
      · intro h0
        rw [getD_set_ne _ _ _ (fun he => hvu he.symm)] at h0
        exact hd2 h0

theorem mid_step_mark (g : Game) (vs : List Nat)
    (whose cat_no cat_yes : Nat) (st0 : ZState)
    (hpre : AttrPre g vs cat_no cat_yes st0) (w u : Nat) (R' : List Nat)
    (P : List Nat) (st : ZState)
    (h : AttrMid g vs whose cat_yes st0 w (u :: R') P st)
    (hu_lt : u < g.n) (hu_nR : u ∉ R') (hw_out : w ∈ g.outOf u)
    (hd0 : st.degs.getD u 0 - 1 = 0) :
    AttrMid g vs whose cat_yes st0 w R' (P ++ [u])
      { st with
        degs := st.degs.set u (st.degs.getD u 0 - 1),
        vtype := st.vtype.set u cat_yes,
        strategy := st.strategy.set u (if g.ownerOf u = whose then (w : Int) else -1) } ∧
    u ∈ vs ∧ st.vtype.getD u 0 ≠ cat_yes := by
  -- the decrement can hit zero only for an unlabelled subgame vertex
  have huvs : u ∈ vs := by
    by_contra hc
    have := h.degsOut u hu_lt hc
    omega
  have humk : st.vtype.getD u 0 ≠ cat_yes := by
    intro hc
    have := h.degsMk u hu_lt huvs hc
    omega
  have hwu : w ≠ u := fun he => humk (he ▸ h.wMk)
  have hyes0 : ¬ st0.vtype.getD u 0 = cat_yes := by
    intro hc
    rcases h.evolve u hu_lt with he | ⟨he, _⟩
    · exact humk (he.trans hc)
    · exact humk he
  -- CanForce for the newly attracted vertex
  have hcf : CanForce g vs whose
      (fun x => st0.vtype.getD x 0 = cat_yes) u := by
    by_cases huown : g.ownerOf u = whose
    · exact CanForce.own u w huvs hyes0 huown hw_out h.wVs
        (h.sound w h.wLt h.wMk)
    · -- opponent vertex: its residual count must be zero
      obtain ⟨hd1, _⟩ := h.degsOpp u hu_lt huvs humk huown
      rw [if_pos (List.mem_cons_self u R')] at hd1
      have hcnt : attrCount g vs P cat_yes st u = 0 := by omega
      have hfe : ∀ x ∈ g.outOf u,
          ¬(x ∈ vs ∧ (st.vtype.getD x 0 ≠ cat_yes ∨ x ∈ P)) := by
        unfold attrCount at hcnt
        rw [List.length_eq_zero] at hcnt
        intro x hx hcond
        have := List.filter_eq_nil.mp hcnt x hx
        simp only [decide_eq_true_eq] at this
        exact this hcond
      refine CanForce.opp u w huvs hyes0 huown hw_out h.wVs ?_
      intro x hx hxvs
      have hxlt : x < g.n := hpre.outLt u hu_lt x hx
      have hxmk : st.vtype.getD x 0 = cat_yes := by
        by_contra hxc
        exact hfe x hx ⟨hxvs, Or.inl hxc⟩
      exact h.sound x hxlt hxmk
  refine ⟨⟨?_, ?_, ?_, h.wLt, h.wVs, ?_, ?_, ?_, ?_, ?_, ?_, ?_, ?_,
    ?_, ?_, ?_, ?_⟩, huvs, humk⟩
  · -- lenV
    dsimp only
    rw [List.length_set]
    exact h.lenV
  · -- lenS
    dsimp only
    rw [List.length_set]
    exact h.lenS
  · -- lenD
    dsimp only
    rw [List.length_set]
    exact h.lenD
  · -- wMk
    dsimp only
    rw [getD_set_ne _ _ _ hwu.symm]
    exact h.wMk
  · -- wNotP
    intro hc
    rcases List.mem_append.mp hc with hc | hc
    · exact h.wNotP hc
    · exact hwu (List.mem_singleton.mp hc)
  · -- outside
    intro v hvlt hvvs
    have hvu : v ≠ u := fun he => hvvs (he ▸ huvs)
    dsimp only
    rw [getD_set_ne _ _ _ (fun he => hvu he.symm),
      getD_set_ne _ _ _ (fun he => hvu he.symm)]
    exact h.outside v hvlt hvvs
  · -- evolve
    intro v hvlt
    dsimp only
    by_cases hvu : v = u
    · subst hvu
      exact Or.inr ⟨getD_set_self _ _ _ _ (h.lenV ▸ hvlt), huvs⟩
    · rw [getD_set_ne _ _ _ (fun he => hvu he.symm)]
      exact h.evolve v hvlt
  · -- sound
    intro v hvlt hvmk
    dsimp only at hvmk
    by_cases hvu : v = u
    · subst hvu
      exact hcf
    · rw [getD_set_ne _ _ _ (fun he => hvu he.symm)] at hvmk
      exact h.sound v hvlt hvmk
  · -- strat
    intro v hvlt hvmk hv0
    dsimp only at hvmk ⊢
    by_cases hvu : v = u
    · subst hvu
      constructor
      · intro hown
        refine ⟨w, hw_out, h.wVs, ?_, ?_⟩
        · rw [getD_set_ne _ _ _ hwu.symm]
          exact h.wMk
        · rw [getD_set_self _ _ _ _ (h.lenS ▸ hvlt), if_pos hown]
      · intro hown
        rw [getD_set_self _ _ _ _ (h.lenS ▸ hvlt), if_neg hown]
    · rw [getD_set_ne _ _ _ (fun he => hvu he.symm)] at hvmk
      rw [getD_set_ne _ _ _ (fun he => hvu he.symm)]
      obtain ⟨hA, hB⟩ := h.strat v hvlt hvmk hv0
      constructor
      · intro hown
        obtain ⟨x, hx1, hx2, hx3, hx4⟩ := hA hown
        refine ⟨x, hx1, hx2, ?_, hx4⟩
        by_cases hxu : x = u
        · subst hxu
          exact getD_set_self _ _ _ _ (h.lenV ▸ hpre.outLt v hvlt x hx1)
        · rw [getD_set_ne _ _ _ (fun he => hxu he.symm)]
          exact hx3
      · exact hB
  · -- pendMem
    intro v hv
    dsimp only
    rcases List.mem_append.mp hv with hv | hv
    · obtain ⟨h1, h2, h3⟩ := h.pendMem v hv
      have hvu : v ≠ u := fun he => humk (he ▸ h3)
      refine ⟨h1, h2, ?_⟩
      rw [getD_set_ne _ _ _ (fun he => hvu he.symm)]
      exact h3
    · rcases List.mem_singleton.mp hv with rfl
      exact ⟨hu_lt, huvs, getD_set_self _ _ _ _ (h.lenV ▸ hu_lt)⟩
  · -- pendNodup
    rw [List.nodup_append]
    refine ⟨h.pendNodup, List.nodup_singleton u, ?_⟩
    intro a ha hau
    have hau2 : a = u := List.mem_singleton.mp hau
    subst hau2
    exact humk (h.pendMem a ha).2.2
  · -- degsOut
    intro v hvlt hvvs
    have hvu : v ≠ u := fun he => hvvs (he ▸ huvs)
    dsimp only
    rw [getD_set_ne _ _ _ (fun he => hvu he.symm)]
    exact h.degsOut v hvlt hvvs
  · -- degsMk
    intro v hvlt hvvs hvmk
    dsimp only at hvmk ⊢
    by_cases hvu : v = u
    · subst hvu
      rw [getD_set_self _ _ _ _ (h.lenD ▸ hvlt)]
      omega
    · rw [getD_set_ne _ _ _ (fun he => hvu he.symm)] at hvmk
      rw [getD_set_ne _ _ _ (fun he => hvu he.symm)]
      exact h.degsMk v hvlt hvvs hvmk
  · -- degsOwn
    intro v hvlt hvvs hvmk hvown
    dsimp only at hvmk ⊢
    have hvu : v ≠ u := by
      intro he
      subst he
      exact hvmk (getD_set_self _ _ _ _ (h.lenV ▸ hvlt))
    rw [getD_set_ne _ _ _ (fun he => hvu he.symm)] at hvmk
    obtain ⟨hd1, hd2⟩ := h.degsOwn v hvlt hvvs hvmk hvown
    refine ⟨?_, ?_⟩
    · rw [getD_set_ne _ _ _ (fun he => hvu he.symm)]
      exact hd1
    · intro x hx hxvs hxmk
      by_cases hxu : x = u
      · subst hxu
        exact Or.inl (List.mem_append.mpr (Or.inr (List.mem_singleton.mpr rfl)))
      · rw [getD_set_ne _ _ _ (fun he => hxu he.symm)] at hxmk
        rcases hd2 x hx hxvs hxmk with hm | ⟨hxw, hvR⟩
        · exact Or.inl (List.mem_append.mpr (Or.inl hm))
        · refine Or.inr ⟨hxw, ?_⟩
          rcases List.mem_cons.mp hvR with he | hm2
          · exact absurd he hvu
          · exact hm2
  · -- degsOpp
    intro v hvlt hvvs hvmk hvown
    dsimp only at hvmk ⊢
    have hvu : v ≠ u := by
      intro he
      subst he
      exact hvmk (getD_set_self _ _ _ _ (h.lenV ▸ hvlt))
    rw [getD_set_ne _ _ _ (fun he => hvu he.symm)] at hvmk
    obtain ⟨hd1, hd2⟩ := h.degsOpp v hvlt hvvs hvmk hvown
    have hcnt_eq : attrCount g vs (P ++ [u]) cat_yes
        { st with
          degs := st.degs.set u (st.degs.getD u 0 - 1),
          vtype := st.vtype.set u cat_yes,
          strategy := st.strategy.set u (if g.ownerOf u = whose then (w : Int) else -1) } v =
        attrCount g vs P cat_yes st v := by
      apply attrCount_eq_of
      intro x hx
      by_cases hxu : x = u
      · subst hxu
        constructor
        · rintro ⟨h1, _⟩
          exact ⟨h1, Or.inl humk⟩
        · rintro ⟨h1, _⟩
          exact ⟨h1, Or.inr (List.mem_append.mpr
            (Or.inr (List.mem_singleton.mpr rfl)))⟩
      · constructor
        · rintro ⟨h1, h2⟩
          refine ⟨h1, ?_⟩
          rcases h2 with h2 | h2
          · dsimp only at h2
            rw [getD_set_ne _ _ _ (fun he => hxu he.symm)] at h2
            exact Or.inl h2
          · rcases List.mem_append.mp h2 with h2 | h2
            · exact Or.inr h2
            · exact absurd (List.mem_singleton.mp h2) hxu
        · rintro ⟨h1, h2⟩
          refine ⟨h1, ?_⟩
          rcases h2 with h2 | h2
          · refine Or.inl ?_
            dsimp only
            rw [getD_set_ne _ _ _ (fun he => hxu he.symm)]
            exact h2
          · exact Or.inr (List.mem_append.mpr (Or.inl h2))
    refine ⟨?_, ?_⟩
    · rw [getD_set_ne _ _ _ (fun he => hvu he.symm), hcnt_eq, hd1]
      have hmem : (v ∈ u :: R') ↔ (v ∈ R') := by
        simp [List.mem_cons, hvu]
      by_cases hvR : v ∈ R'
      · rw [if_pos hvR, if_pos (hmem.mpr hvR)]
      · rw [if_neg hvR, if_neg (fun hc => hvR (hmem.mp hc))]
    · intro h0
      rw [getD_set_ne _ _ _ (fun he => hvu he.symm)] at h0
      exact hd2 h0

theorem attrStep_fold (g : Game) (vs : List Nat)
    (whose cat_no cat_yes : Nat) (st0 : ZState)
    (hpre : AttrPre g vs cat_no cat_yes st0) (w : Nat) (P' : List Nat) :
    ∀ (R : List Nat), R.Nodup → (∀ v ∈ R, v ∈ g.inOf w) →
    ∀ (st : ZState) (acc : List Nat),
      AttrMid g vs whose cat_yes st0 w R (P' ++ acc) st →
      AttrMid g vs whose cat_yes st0 w []
        (P' ++ (R.foldl (attrStepF g whose cat_yes w) (st, acc)).2)
        (R.foldl (attrStepF g whose cat_yes w) (st, acc)).1 ∧
      (vs.filter (fun x => !decide
          ((R.foldl (attrStepF g whose cat_yes w) (st, acc)).1.vtype.getD x 0
            = cat_yes))).length
        + (R.foldl (attrStepF g whose cat_yes w) (st, acc)).2.length
      = (vs.filter (fun x =>
          !decide (st.vtype.getD x 0 = cat_yes))).length + acc.length := by
  intro R
  induction R with
  | nil =>
    intro _ _ st acc h
    exact ⟨h, rfl⟩
  | cons u R' ih =>
    intro hnd hR st acc h
    have hu_in : u ∈ g.inOf w := hR u (List.mem_cons_self u R')
    have hu_lt : u < g.n := hpre.inLt w h.wLt u hu_in
    have hw_out : w ∈ g.outOf u := (hpre.dual u hu_lt w h.wLt).mpr hu_in
    have hu_nR : u ∉ R' := (List.nodup_cons.mp hnd).1
    have hnd' : R'.Nodup := (List.nodup_cons.mp hnd).2
    have hR' : ∀ v ∈ R', v ∈ g.inOf w :=
      fun v hv => hR v (List.mem_cons_of_mem _ hv)
    rw [List.foldl_cons]
    by_cases hd0 : st.degs.getD u 0 - 1 = 0
    · -- the decrement attracts u
      have hF : attrStepF g whose cat_yes w (st, acc) u =
          ({ st with
            degs := st.degs.set u (st.degs.getD u 0 - 1),
            vtype := st.vtype.set u cat_yes,
            strategy := st.strategy.set u (if g.ownerOf u = whose then (w : Int) else -1) },
           acc ++ [u]) := by
        unfold attrStepF
        dsimp only
        rw [if_pos hd0]
      rw [hF]
      obtain ⟨hmid2, huvs, humk⟩ := mid_step_mark g vs whose cat_no cat_yes
        st0 hpre w u R' (P' ++ acc) st h hu_lt hu_nR hw_out hd0
      rw [List.append_assoc] at hmid2
      obtain ⟨hfin, hmeas⟩ := ih hnd' hR' _ (acc ++ [u]) hmid2
      refine ⟨hfin, ?_⟩
      have hdrop : (vs.filter (fun x =>
          !decide (st.vtype.getD x 0 = cat_yes))).length =
          (vs.filter (fun x =>
            !decide ((st.vtype.set u cat_yes).getD x 0 = cat_yes))).length
          + 1 := by
        apply filter_length_drop hpre.vsNodup huvs
        · simp only [Bool.not_eq_true', decide_eq_false_iff_not]
          exact humk
        · simp only [Bool.not_eq_false', decide_eq_true_eq]
          exact getD_set_self _ _ _ _ (h.lenV ▸ hu_lt)
        · intro x _ hxu
          rw [getD_set_ne _ _ _ (fun he => hxu he.symm)]
      dsimp only at hmeas
      simp only [List.length_append, List.length_singleton] at hmeas
      omega
    · -- plain decrement
      have hF : attrStepF g whose cat_yes w (st, acc) u =
          ({ st with degs := st.degs.set u (st.degs.getD u 0 - 1) },
           acc) := by
        unfold attrStepF
        dsimp only
        rw [if_neg hd0]
      rw [hF]
      exact ih hnd' hR' _ acc
        (mid_step_nomark g vs whose cat_no cat_yes st0 hpre w u R'
          (P' ++ acc) st h hu_lt hu_nR hd0)

theorem attrGo_spec (g : Game) (vs : List Nat)
    (whose cat_no cat_yes : Nat) (st0 : ZState)
    (hpre : AttrPre g vs cat_no cat_yes st0) :
    ∀ (fuel : Nat) (P : List Nat) (st : ZState),
      AttrInv g vs whose cat_yes st0 P st →
      P.length + (vs.filter (fun x =>
        !decide (st.vtype.getD x 0 = cat_yes))).length ≤ fuel →
      AttrInv g vs whose cat_yes st0 []
        (zsolver.attrGo g whose cat_yes fuel P st) := by
  intro fuel
  induction fuel with
  | zero =>
    intro P st h hm
    have hP : P = [] := List.length_eq_zero.mp (by omega)
    subst hP
    exact h
  | succ fuel ih =>
    intro P st h hm
    cases P with
    | nil => exact h
    | cons w P' =>
      have hstep : zsolver.attrGo g whose cat_yes (fuel + 1) (w :: P') st =
          zsolver.attrGo g whose cat_yes fuel
            (P' ++ (zsolver.attrStep g whose cat_yes w st).2)
            (zsolver.attrStep g whose cat_yes w st).1 := rfl
      rw [hstep]
      have hmid0 := mid_of_inv g vs whose cat_no cat_yes st0 hpre w P' st h
      have hmid0' : AttrMid g vs whose cat_yes st0 w (g.inOf w)
          (P' ++ []) st := by
        rw [List.append_nil]
        exact hmid0
      obtain ⟨hfin, hmeas⟩ := attrStep_fold g vs whose cat_no cat_yes st0
        hpre w P' (g.inOf w) (hpre.inNodup w hmid0.wLt)
        (fun v hv => hv) st [] hmid0'
      rw [attrStep_eq_foldF]
      apply ih _ _ (inv_of_mid g vs whose cat_yes st0 w _ _ hfin)
      rw [List.length_append]
      simp only [List.length_cons] at hm
      simp only [List.length_nil] at hmeas
      omega

theorem attrInit_inv (g : Game) (vs : List Nat)
    (whose cat_no cat_yes : Nat) (st : ZState)
    (hpre : AttrPre g vs cat_no cat_yes st) :
    AttrInv g vs whose cat_yes st
      (vs.filter (fun v => decide (st.vtype.getD v 0 = cat_yes)))
      (zsolver.attrInit g whose cat_no cat_yes vs st) := by
  obtain ⟨hv, hs, hdl, hd⟩ := attrInit_spec g whose cat_no cat_yes vs st
    (fun v hvm => (hpre.lenD ▸ hpre.vsLt v hvm))
  refine ⟨by rw [hv]; exact hpre.lenV, by rw [hs]; exact hpre.lenS,
    by rw [hdl]; exact hpre.lenD, ?_, ?_, ?_, ?_, ?_, ?_, ?_, ?_, ?_, ?_⟩
  · -- outside
    intro v _ _
    rw [hv, hs]
    exact ⟨rfl, rfl⟩
  · -- evolve
    intro v _
    rw [hv]
    exact Or.inl rfl
  · -- sound
    intro v hvlt hvmk
    rw [hv] at hvmk
    have hvvs : v ∈ vs := (hpre.vtypeIff v hvlt).mp (Or.inr hvmk)
    exact CanForce.base v hvvs hvmk
  · -- strat
    intro v _ hvmk hv0
    rw [hv] at hvmk
    exact absurd hvmk hv0
  · -- pendMem
    intro v hvm
    obtain ⟨hvvs, hvd⟩ := List.mem_filter.mp hvm
    have hvmk : st.vtype.getD v 0 = cat_yes := of_decide_eq_true hvd
    exact ⟨hpre.vsLt v hvvs, hvvs, by rw [hv]; exact hvmk⟩
  · -- pendNodup
    exact hpre.vsNodup.filter _
  · -- degsOut
    intro v hvlt hvvs
    rw [hd v, if_neg (fun hc => hvvs hc.1)]
    exact hpre.degsNeg v hvlt
  · -- degsMk
    intro v hvlt hvvs hvmk
    rw [hv] at hvmk
    rw [hd v, if_neg (fun hc => hc.2 hvmk)]
    have := hpre.degsNeg v hvlt
    omega
  · -- degsOwn
    intro v hvlt hvvs hvmk hvown
    rw [hv] at hvmk
    refine ⟨?_, ?_⟩
    · rw [hd v, if_pos ⟨hvvs, hvmk⟩]
      unfold initDeg
      rw [if_pos hvown]
    · intro x hx hxvs hxmk
      rw [hv] at hxmk
      exact List.mem_filter.mpr ⟨hxvs, decide_eq_true hxmk⟩
  · -- degsOpp
    intro v hvlt hvvs hvmk hvown
    rw [hv] at hvmk
    have hdeg : (zsolver.attrInit g whose cat_no cat_yes vs st).degs.getD v 0
        = initDeg g whose cat_no cat_yes st v := by
      rw [hd v, if_pos ⟨hvvs, hvmk⟩]
    have hcnt : ((g.outOf v).filter (fun w =>
        decide (st.vtype.getD w 0 = cat_no ∨ st.vtype.getD w 0 = cat_yes))).length
        = attrCount g vs
            (vs.filter (fun x => decide (st.vtype.getD x 0 = cat_yes)))
            cat_yes (zsolver.attrInit g whose cat_no cat_yes vs st) v := by
      unfold attrCount
      rw [hv]
      apply filter_length_congr
      intro x hx
      have hxlt : x < g.n := hpre.outLt v hvlt x hx
      apply decide_eq_decide.mpr
      constructor
      · intro hor
        have hxvs : x ∈ vs := (hpre.vtypeIff x hxlt).mp hor
        refine ⟨hxvs, ?_⟩
        by_cases hxmk : st.vtype.getD x 0 = cat_yes
        · exact Or.inr (List.mem_filter.mpr ⟨hxvs, decide_eq_true hxmk⟩)
        · exact Or.inl hxmk
      · rintro ⟨hxvs, _⟩
        exact (hpre.vtypeIff x hxlt).mpr hxvs
    refine ⟨?_, ?_⟩
    · rw [hdeg]
      unfold initDeg
      rw [if_neg hvown, hcnt]
    · intro h0
      rw [hdeg] at h0
      unfold initDeg at h0
      rw [if_neg hvown] at h0
      have hlen0 : ((g.outOf v).filter (fun w =>
          decide (st.vtype.getD w 0 = cat_no ∨ st.vtype.getD w 0 = cat_yes))).length = 0 := by
        exact_mod_cast h0
      rw [List.length_eq_zero] at hlen0
      rw [List.filter_eq_nil]
      intro x hx
      have hxlt : x < g.n := hpre.outLt v hvlt x hx
      simp only [decide_eq_true_eq]
      intro hxvs
      have hor := (hpre.vtypeIff x hxlt).mpr hxvs
      have := List.filter_eq_nil.mp hlen0 x hx
      simp only [decide_eq_true_eq] at this
      exact this hor

theorem attr_complete (g : Game) (vs : List Nat)
    (whose cat_no cat_yes : Nat) (st0 stF : ZState)
    (hpre : AttrPre g vs cat_no cat_yes st0)
    (h : AttrInv g vs whose cat_yes st0 [] stF) :
    ∀ v, CanForce g vs whose (fun u => st0.vtype.getD u 0 = cat_yes) v →
      stF.vtype.getD v 0 = cat_yes := by
  intro v hcf
  induction hcf with
  | base v hv hy =>
    rcases h.evolve v (hpre.vsLt v hv) with he | ⟨he, _⟩
    · rw [he]
      exact hy
    · exact he
  | own v w hv hy hown hw hwvs hcfw ihw =>
    by_contra hvmk
    obtain ⟨_, hcl⟩ := h.degsOwn v (hpre.vsLt v hv) hv hvmk hown
    exact absurd (hcl w hw hwvs ihw) (List.not_mem_nil w)
  | opp v w0 hv hy hown hw0 hw0vs hall ihall =>
    by_contra hvmk
    obtain ⟨hd1, hd2⟩ := h.degsOpp v (hpre.vsLt v hv) hv hvmk hown
    have hcnt : attrCount g vs [] cat_yes stF v = 0 := by
      unfold attrCount
      rw [List.length_eq_zero, List.filter_eq_nil]
      intro x hx
      simp only [decide_eq_true_eq]
      rintro ⟨hxvs, hxc⟩
      rcases hxc with hxc | hxc
      · exact hxc (ihall x hx hxvs)
      · exact (List.not_mem_nil x) hxc
    rw [hcnt] at hd1
    have hfe := hd2 (by rw [hd1]; rfl)
    have hw0f : w0 ∈ (g.outOf v).filter (fun x => decide (x ∈ vs)) :=
      List.mem_filter.mpr ⟨hw0, decide_eq_true hw0vs⟩
    rw [hfe] at hw0f
    exact (List.not_mem_nil w0) hw0f

/-- Claim C8: under its precondition (vtype[v] is cat_no or cat_yes iff
v is in vs, plus well-formed in/out adjacency and the degs hygiene the
callers maintain), `zsolver::attractor(vs, whose, cat_no, cat_yes)`
relabels to cat_yes exactly those vertices of vs from which player
`whose` can force the play into the initial cat_yes set while remaining
inside vs (the restricted subgame); each newly attracted vertex owned by
`whose` receives a strategy pointing at a successor inside the attractor,
each newly attracted opponent vertex receives strategy -1; and vtype and
strategy are unchanged outside vs. -/
theorem claim_C8 (g : Game) (vs : List Nat) (whose cat_no cat_yes : Nat)
    (st : ZState) (hpre : AttrPre g vs cat_no cat_yes st) :
    (∀ v ∈ vs,
      ((zsolver.attractor g vs whose cat_no cat_yes st).vtype.getD v 0
          = cat_yes ↔
        CanForce g vs whose (fun u => st.vtype.getD u 0 = cat_yes) v)) ∧
    (∀ v ∈ vs, st.vtype.getD v 0 ≠ cat_yes →
      (zsolver.attractor g vs whose cat_no cat_yes st).vtype.getD v 0
        = cat_yes →
      (g.ownerOf v = whose → ∃ w, w ∈ g.outOf v ∧ w ∈ vs ∧
        (zsolver.attractor g vs whose cat_no cat_yes st).vtype.getD w 0
          = cat_yes ∧
        (zsolver.attractor g vs whose cat_no cat_yes st).strategy.getD v 0
          = (w : Int)) ∧
      (g.ownerOf v ≠ whose →
        (zsolver.attractor g vs whose cat_no cat_yes st).strategy.getD v 0
          = -1)) ∧
    (∀ v, v < g.n → v ∉ vs →
      (zsolver.attractor g vs whose cat_no cat_yes st).vtype.getD v 0
        = st.vtype.getD v 0 ∧
      (zsolver.attractor g vs whose cat_no cat_yes st).strategy.getD v 0
        = st.strategy.getD v 0) := by
  have hinv0 := attrInit_inv g vs whose cat_no cat_yes st hpre
  obtain ⟨hv1, hs1, _, _⟩ := attrInit_spec g whose cat_no cat_yes vs st
    (fun v hvm => (hpre.lenD ▸ hpre.vsLt v hvm))
  have hmeas : (vs.filter (fun v =>
        decide (st.vtype.getD v 0 = cat_yes))).length +
      (vs.filter (fun x =>
        !decide ((zsolver.attrInit g whose cat_no cat_yes vs st).vtype.getD
          x 0 = cat_yes))).length ≤ vs.length := by
    rw [hv1]
    rw [filter_length_partition vs
      (fun v => decide (st.vtype.getD v 0 = cat_yes))]
  have hfin := attrGo_spec g vs whose cat_no cat_yes st hpre vs.length
    (vs.filter (fun v => decide (st.vtype.getD v 0 = cat_yes)))
    (zsolver.attrInit g whose cat_no cat_yes vs st) hinv0 hmeas
  have hveq : (zsolver.attractor g vs whose cat_no cat_yes st).vtype =
      (zsolver.attrGo g whose cat_yes vs.length
        (vs.filter (fun v => decide (st.vtype.getD v 0 = cat_yes)))
        (zsolver.attrInit g whose cat_no cat_yes vs st)).vtype := rfl
  have hseq : (zsolver.attractor g vs whose cat_no cat_yes st).strategy =
      (zsolver.attrGo g whose cat_yes vs.length
        (vs.filter (fun v => decide (st.vtype.getD v 0 = cat_yes)))
        (zsolver.attrInit g whose cat_no cat_yes vs st)).strategy := rfl
  refine ⟨?_, ?_, ?_⟩
  · intro v hvvs
    rw [hveq]
    constructor
    · intro hmk
      exact hfin.sound v (hpre.vsLt v hvvs) hmk
    · intro hcf
      exact attr_complete g vs whose cat_no cat_yes st _ hpre hfin v hcf
  · intro v hvvs hv0 hmk
    rw [hveq] at hmk
    rw [hveq, hseq]
    exact hfin.strat v (hpre.vsLt v hvvs) hmk hv0
  · intro v hvlt hvvs
    rw [hveq, hseq]
    exact hfin.outside v hvlt hvvs

theorem claim_C8_witness :
    AttrPre gTwo [0, 1] 5 7 zwit ∧
    ((∀ v ∈ [0, 1],
      ((zsolver.attractor gTwo [0, 1] 0 5 7 zwit).vtype.getD v 0 = 7 ↔
        CanForce gTwo [0, 1] 0 (fun u => zwit.vtype.getD u 0 = 7) v)) ∧
    (∀ v ∈ [0, 1], zwit.vtype.getD v 0 ≠ 7 →
      (zsolver.attractor gTwo [0, 1] 0 5 7 zwit).vtype.getD v 0 = 7 →
      (gTwo.ownerOf v = 0 → ∃ w, w ∈ gTwo.outOf v ∧ w ∈ [0, 1] ∧
        (zsolver.attractor gTwo [0, 1] 0 5 7 zwit).vtype.getD w 0 = 7 ∧
        (zsolver.attractor gTwo [0, 1] 0 5 7 zwit).strategy.getD v 0
          = (w : Int)) ∧
      (gTwo.ownerOf v ≠ 0 →
        (zsolver.attractor gTwo [0, 1] 0 5 7 zwit).strategy.getD v 0 = -1)) ∧
    (∀ v, v < gTwo.n → v ∉ [0, 1] →
      (zsolver.attractor gTwo [0, 1] 0 5 7 zwit).vtype.getD v 0
        = zwit.vtype.getD v 0 ∧
      (zsolver.attractor gTwo [0, 1] 0 5 7 zwit).strategy.getD v 0
        = zwit.strategy.getD v 0)) := by
  have hpre : AttrPre gTwo [0, 1] 5 7 zwit :=
    ⟨by decide, by decide, by decide, by decide, by decide, by decide,
     by decide, by decide, by decide, by decide, by decide, by decide,
     by decide⟩
  exact ⟨hpre, claim_C8 gTwo [0, 1] 0 5 7 zwit hpre⟩

end pg
